import Mathlib

/-!
# Verification of a binary-CSP solver and game-tree search

Shallow embedding of a Python repository consisting of:
* `csp.py`: a binary constraint-satisfaction-problem class with AC-3
  propagation (`ac_3`/`revise`) and chronological backtracking search
  (`backtracking_search`/`is_consistent`), plus the `alldiff` edge generator;
* three adversarial-search scripts (halving game, bucket game, tic-tac-toe)
  sharing a minimax / alpha-beta implementation.

Python sets of values are represented as lists (their iteration order),
dictionaries as association lists or functions, and the object's mutable
state (`domains`, the two diagnostic counters) is threaded explicitly.
Unbounded recursion (the AC-3 worklist loop, the backtracking recursion,
the game-tree walks) is embedded with an explicit fuel parameter; the fuel
supplied by the wrapper functions is proved sufficient, so the fuel-exhausted
branch is unreachable and the embedding computes exactly what the Python
code computes.
-/

set_option maxHeartbeats 1000000

/-- An assignment, as built by `backtracking_search`: a Python dict from
variable names to values, embedded as an association list. -/
abbrev Assignment := List (String × Int)

/-- The binary-constraints store: a Python dict keyed by ordered variable
pairs, each value a set of allowed value pairs. -/
abbrev ConstraintMap := List ((String × String) × List (Int × Int))

/-- The per-variable domains (`self.domains`): a Python dict mapping every
variable that occurs to its set of candidate values. -/
abbrev Domains := String → List Int

/-- The `CSP` class instance state: `variables`, `domains`,
`binary_constraints` and the two diagnostic counters. -/
structure CSP where
  vars : List String
  domains : Domains
  binary_constraints : ConstraintMap
  backtrack_counter : Nat
  fail_counter : Nat

/-- `(variable1, variable2) in self.binary_constraints` — membership of a
key in the constraints dict. -/
def hasKey (bc : ConstraintMap) (k : String × String) : Bool :=
  bc.any fun e => e.1 == k

/-- `self.binary_constraints.get(key, set())` — lookup of a key in the
constraints dict, defaulting to the empty set. -/
def getConstraint (bc : ConstraintMap) (k : String × String) : List (Int × Int) :=
  match bc.find? (fun e => e.1 == k) with
  | some e => e.2
  | none => []

/-- The value-pair set constructed for one edge `(variable1, variable2)` in
`CSP.__init__`: every pair `(value1, value2)` with `value1 ≠ value2` is
inserted in both orders. -/
def constraintPairs (d1 d2 : List Int) : List (Int × Int) :=
  d1.flatMap fun value1 =>
    d2.flatMap fun value2 =>
      if value1 ≠ value2 then [(value1, value2), (value2, value1)] else []

/-- `CSP.__init__(variables, domains, edges)`: stores the variables and
domains, zeroes the counters, and derives `binary_constraints` with one
entry per declared edge, in the declared orientation. -/
def CSP.make (vars : List String) (domains : Domains)
    (edges : List (String × String)) : CSP :=
  { vars := vars
    domains := domains
    binary_constraints :=
      edges.map fun e => (e, constraintPairs (domains e.1) (domains e.2))
    backtrack_counter := 0
    fail_counter := 0 }

/-- The binary-constraint violation test spelled out in the comment of
`CSP.__init__` and used verbatim in `CSP.is_consistent`: the pair
`variable1 = value1, variable2 = value2` violates a constraint when a
constraint entry exists for the variable pair in either declared order and
the correspondingly ordered value pair is absent from it. -/
def violatesConstraint (bc : ConstraintMap) (variable1 : String) (value1 : Int)
    (variable2 : String) (value2 : Int) : Bool :=
  (hasKey bc (variable1, variable2) &&
    !((getConstraint bc (variable1, variable2)).contains (value1, value2))) ||
  (hasKey bc (variable2, variable1) &&
    !((getConstraint bc (variable2, variable1)).contains (value2, value1)))

/-- `CSP.is_consistent(value, var, assignment)`: `value` for `var` is
consistent iff no variable already in the assignment gives a violated
binary constraint. -/
def CSP.is_consistent (csp : CSP) (value : Int) (var : String)
    (assignment : Assignment) : Bool :=
  csp.vars.all fun neighbor =>
    match assignment.lookup neighbor with
    | none => true
    | some neighbor_value =>
        !(violatesConstraint csp.binary_constraints var value neighbor neighbor_value)

/-- `CSP.is_complete(assignment)`: every variable of the instance has been
assigned. -/
def CSP.is_complete (csp : CSP) (assignment : Assignment) : Bool :=
  csp.vars.all fun var => (assignment.lookup var).isSome

/-- `CSP.select_unassigned_variable(assignment)`: the first variable in
declared order without an assignment. -/
def CSP.select_unassigned_variable (csp : CSP) (assignment : Assignment) :
    Option String :=
  csp.vars.find? fun var => (assignment.lookup var).isNone

/-- `CSP.order_domain_values(var)`: the domain of `var`, unreordered. -/
def CSP.order_domain_values (csp : CSP) (var : String) : List Int :=
  csp.domains var

/-- The `for value in self.order_domain_values(var)` loop of `backtrack`:
try each value in order; on consistency, assign and recurse (`recur`); a
`some` result propagates up immediately, a `none` result undoes the
assignment (the recursion is handed the unextended assignment) and moves
on; when the values are exhausted `fail_counter` is incremented and the
call fails. -/
def tryValues (recur : CSP → Assignment → Option Assignment × CSP)
    (var : String) (assignment : Assignment) :
    List Int → CSP → Option Assignment × CSP
  | [], csp => (none, { csp with fail_counter := csp.fail_counter + 1 })
  | value :: rest, csp =>
      if csp.is_consistent value var assignment then
        match recur csp ((var, value) :: assignment) with
        | (some result, csp1) => (some result, csp1)
        | (none, csp1) => tryValues recur var assignment rest csp1
      else
        tryValues recur var assignment rest csp

/-- The recursive `backtrack(assignment)`: increments `backtrack_counter`,
returns the assignment when complete, else selects the first unassigned
variable and loops over its domain values. The fuel argument only bounds
the recursion depth; `CSP.backtracking_search` supplies enough fuel that
the fuel-exhausted branch is never reached. -/
def backtrack : Nat → CSP → Assignment → Option Assignment × CSP
  | 0, csp, _ => (none, csp)
  | fuel + 1, csp, assignment =>
      let csp1 := { csp with backtrack_counter := csp.backtrack_counter + 1 }
      if csp1.is_complete assignment then (some assignment, csp1)
      else
        match csp1.select_unassigned_variable assignment with
        | none => (none, csp1)
        | some var =>
            tryValues (backtrack fuel) var assignment
              (csp1.order_domain_values var) csp1

/-- `CSP.backtracking_search()`: runs `backtrack` from the empty
assignment. Each recursion level assigns one further variable, so
`|variables| + 1` levels of fuel always suffice. -/
def CSP.backtracking_search (csp : CSP) : Option Assignment × CSP :=
  backtrack (csp.vars.length + 1) csp []

/-- Updating one entry of the domains dict in place
(`self.domains[Xi].remove(x)` rebinds the set stored at `Xi`). -/
def updateDomain (domains : Domains) (var : String) (d : List Int) : Domains :=
  fun v => if v = var then d else domains v

/-- The `for x in set(self.domains[Xi])` loop of `CSP.revise`, iterating
over a snapshot of `Xi`'s domain while mutating the live domains: `x` is
removed when no `y` in the live domain of `Xj` has `(x, y)` in the
constraint set for `(Xi, Xj)`. Returns the final domains and whether any
removal occurred. -/
def reviseAux (bc : ConstraintMap) (Xi Xj : String) :
    List Int → Domains → Domains × Bool
  | [], domains => (domains, false)
  | x :: rest, domains =>
      if (domains Xj).any (fun y => (getConstraint bc (Xi, Xj)).contains (x, y)) then
        reviseAux bc Xi Xj rest domains
      else
        let r := reviseAux bc Xi Xj rest
          (updateDomain domains Xi ((domains Xi).filter (fun v => !(v == x))))
        (r.1, true)

/-- `CSP.revise(Xi, Xj)`: iterate over a snapshot of `domains[Xi]`,
removing unsupported values. -/
def revise (bc : ConstraintMap) (domains : Domains) (Xi Xj : String) :
    Domains × Bool :=
  reviseAux bc Xi Xj (domains Xi) domains

/-- The initial AC-3 worklist: `for Xi in variables: for Xj in variables:
if (Xi, Xj) in binary_constraints: queue.put((Xi, Xj))`. Only arcs in the
declared key orientation enter the queue. -/
def initQueue (vars : List String) (bc : ConstraintMap) :
    List (String × String) :=
  vars.flatMap fun Xi =>
    vars.filterMap fun Xj =>
      if hasKey bc (Xi, Xj) then some (Xi, Xj) else none

/-- The re-enqueue step after a successful revision of `Xi` against `Xj`:
every `Xk` in `variables` with `Xk ≠ Xj` and `(Xk, Xi)` a declared
constraint key contributes the arc `(Xk, Xi)`. -/
def requeue (vars : List String) (bc : ConstraintMap) (Xi Xj : String) :
    List (String × String) :=
  (vars.filter fun Xk => !(Xk == Xj) && hasKey bc (Xk, Xi)).map
    fun Xk => (Xk, Xi)

/-- The `while not queue.empty()` loop of `CSP.ac_3` (FIFO queue): pop an
arc, revise; an emptied domain aborts with `false`; a successful revision
re-enqueues the incoming arcs of `Xi` other than `(Xj, Xi)`. The fuel
argument is an upper bound on the number of loop iterations; `CSP.ac_3`
supplies a provably sufficient amount, making the fuel-exhausted branch
unreachable. -/
def ac3Loop (vars : List String) (bc : ConstraintMap) :
    Nat → List (String × String) → Domains → Bool × Domains
  | 0, _, domains => (false, domains)
  | _ + 1, [], domains => (true, domains)
  | fuel + 1, (Xi, Xj) :: rest, domains =>
      let r := revise bc domains Xi Xj
      if r.2 then
        if (r.1 Xi).isEmpty then (false, r.1)
        else ac3Loop vars bc fuel (rest ++ requeue vars bc Xi Xj) r.1
      else ac3Loop vars bc fuel rest r.1

/-- Total size of the domains of the (deduplicated) declared variables:
the quantity that strictly shrinks whenever `revise` removes a value. -/
def sumDomains (vars : List String) (domains : Domains) : Nat :=
  (vars.dedup.map fun v => (domains v).length).sum

/-- Fuel that provably suffices for the AC-3 worklist loop: every
iteration either consumes a queue entry without touching the domains, or
shrinks `sumDomains` while adding at most `|variables|` entries. -/
def ac3Fuel (vars : List String) (queue : List (String × String))
    (domains : Domains) : Nat :=
  queue.length + sumDomains vars domains * (vars.length + 1) + 1

/-- `CSP.ac_3()`: builds the initial worklist and runs the loop, returning
the boolean result and the instance with its reduced domains. -/
def CSP.ac_3 (csp : CSP) : Bool × CSP :=
  let queue := initQueue csp.vars csp.binary_constraints
  let r := ac3Loop csp.vars csp.binary_constraints
    (ac3Fuel csp.vars queue csp.domains) queue csp.domains
  (r.1, { csp with domains := r.2 })

/-- `alldiff(variables)`: all pairs `(variables[i], variables[j])` with
`i < j`, in the source's double-loop order. -/
def alldiff (vars : List String) : List (String × String) :=
  (List.range (vars.length - 1)).flatMap fun i =>
    (List.range' (i + 1) (vars.length - (i + 1))).map fun j =>
      (vars.getD i "", vars.getD j "")

example : alldiff ["X", "Y", "Z"] = [("X", "Y"), ("X", "Z"), ("Y", "Z")] := by
  decide

example :
    (CSP.make ["a", "b"] (fun _ => [1]) [("a", "b")]).ac_3 =
      ((CSP.make ["a", "b"] (fun _ => [1]) [("a", "b")]).ac_3.1,
        (CSP.make ["a", "b"] (fun _ => [1]) [("a", "b")]).ac_3.2) := rfl

/-! ## Game-tree search (minimax and alpha-beta)

The three game scripts share one duck-typed search implementation. Game
values are floats in Python, used only at `±1`, small integers, and the
sentinels `float('-inf')`/`float('inf')`; they are embedded as integers
extended with a bottom and a top element. -/

/-- Game values: integers extended with `-inf` (bottom) and `+inf`. -/
abbrev GVal := WithBot (WithTop Int)

/-- The `float('inf')` sentinel. -/
def gtop : GVal := ((⊤ : WithTop Int) : GVal)

/-- An integer utility as a game value. -/
def gv (n : Int) : GVal := ((n : WithTop Int) : GVal)

/-- The duck-typed game interface consumed by the searches:
`to_move`, `actions`, `result`, `is_terminal` and `utility(state, player)`.
`utility` is embedded total here because the searches only invoke it on
states that passed `is_terminal`; the per-game assertion behaviour is
modelled separately by the games' `Option`-valued utilities. -/
structure AGame (S A : Type) where
  to_move : S → Int
  actions : S → List A
  result : S → A → S
  is_terminal : S → Bool
  utility : S → Int → Int

/-- The `for a in game.actions(state)` loop of `max_value`: keep the
strictly best value seen so far and the action achieving it (`move` is
`none` while unbound, standing for the `float('-inf')` placeholder). -/
def maxGo {S A : Type} (recurMin : S → GVal × Option A) (g : AGame S A) (s : S) :
    List A → GVal → Option A → GVal × Option A
  | [], v, move => (v, move)
  | a :: rest, v, move =>
      let r := recurMin (g.result s a)
      if v < r.1 then maxGo recurMin g s rest r.1 (some a)
      else maxGo recurMin g s rest v move

/-- The action loop of `min_value`, mirroring `maxGo` with the comparison
reversed. -/
def minGo {S A : Type} (recurMax : S → GVal × Option A) (g : AGame S A) (s : S) :
    List A → GVal → Option A → GVal × Option A
  | [], v, move => (v, move)
  | a :: rest, v, move =>
      let r := recurMax (g.result s a)
      if r.1 < v then minGo recurMax g s rest r.1 (some a)
      else minGo recurMax g s rest v move

/-- `max_value` and `min_value` bundled in one fuel-indexed definition
(the two Python functions are mutually recursive; each ply consumes one
unit of fuel). On a terminal state both return `(utility(state, player),
None)`; otherwise they fold over the actions starting from
`float('-inf')` resp. `float('inf')`. At fuel `0` a non-terminal state
yields the fold's initial accumulator, which is never reached when the
fuel bounds the game depth. -/
def mmBoth {S A : Type} (g : AGame S A) (player : Int) :
    Nat → S → (GVal × Option A) × (GVal × Option A)
  | 0, s =>
      if g.is_terminal s then
        ((gv (g.utility s player), none), (gv (g.utility s player), none))
      else ((⊥, none), (gtop, none))
  | n + 1, s =>
      if g.is_terminal s then
        ((gv (g.utility s player), none), (gv (g.utility s player), none))
      else
        (maxGo (fun t => (mmBoth g player n t).2) g s (g.actions s) ⊥ none,
         minGo (fun t => (mmBoth g player n t).1) g s (g.actions s) gtop none)

/-- `max_value(game, state)` at the given fuel. -/
def max_value {S A : Type} (g : AGame S A) (player : Int) (n : Nat) (s : S) :
    GVal × Option A :=
  (mmBoth g player n s).1

/-- `min_value(game, state)` at the given fuel. -/
def min_value {S A : Type} (g : AGame S A) (player : Int) (n : Nat) (s : S) :
    GVal × Option A :=
  (mmBoth g player n s).2

/-- `minimax_search(game, state)`: the action component of `max_value`,
with the global `player` equal to the player to move at the root. -/
def minimax_search {S A : Type} (g : AGame S A) (n : Nat) (s : S) : Option A :=
  (max_value g (g.to_move s) n s).2

/-- The action loop of `max_value_ab`: on a strict improvement the value,
move and `alpha` are updated; after each iteration `v >= beta` returns
immediately (beta cutoff). -/
def abMaxGo {S A : Type} (recurMin : S → GVal → GVal → GVal × Option A)
    (g : AGame S A) (s : S) :
    List A → GVal → Option A → GVal → GVal → GVal × Option A
  | [], v, move, _, _ => (v, move)
  | a :: rest, v, move, alpha, beta =>
      let r := recurMin (g.result s a) alpha beta
      if v < r.1 then
        if beta ≤ r.1 then (r.1, some a)
        else abMaxGo recurMin g s rest r.1 (some a) (max alpha r.1) beta
      else
        if beta ≤ v then (v, move)
        else abMaxGo recurMin g s rest v move alpha beta

/-- The action loop of `min_value_ab`, mirroring `abMaxGo`: `beta` shrinks
and `v <= alpha` returns immediately (alpha cutoff). -/
def abMinGo {S A : Type} (recurMax : S → GVal → GVal → GVal × Option A)
    (g : AGame S A) (s : S) :
    List A → GVal → Option A → GVal → GVal → GVal × Option A
  | [], v, move, _, _ => (v, move)
  | a :: rest, v, move, alpha, beta =>
      let r := recurMax (g.result s a) alpha beta
      if r.1 < v then
        if r.1 ≤ alpha then (r.1, some a)
        else abMinGo recurMax g s rest r.1 (some a) alpha (min beta r.1)
      else
        if v ≤ alpha then (v, move)
        else abMinGo recurMax g s rest v move alpha beta

/-- `max_value_ab` and `min_value_ab` bundled in one fuel-indexed
definition, as for `mmBoth`. -/
def abBoth {S A : Type} (g : AGame S A) (player : Int) :
    Nat → S → (GVal → GVal → GVal × Option A) × (GVal → GVal → GVal × Option A)
  | 0, s =>
      (fun _ _ =>
        if g.is_terminal s then (gv (g.utility s player), none) else (⊥, none),
       fun _ _ =>
        if g.is_terminal s then (gv (g.utility s player), none) else (gtop, none))
  | n + 1, s =>
      (fun alpha beta =>
        if g.is_terminal s then (gv (g.utility s player), none)
        else abMaxGo (fun t al be => (abBoth g player n t).2 al be) g s
          (g.actions s) ⊥ none alpha beta,
       fun alpha beta =>
        if g.is_terminal s then (gv (g.utility s player), none)
        else abMinGo (fun t al be => (abBoth g player n t).1 al be) g s
          (g.actions s) gtop none alpha beta)

/-- `max_value_ab(game, state, alpha, beta)` at the given fuel. -/
def max_value_ab {S A : Type} (g : AGame S A) (player : Int) (n : Nat) (s : S)
    (alpha beta : GVal) : GVal × Option A :=
  (abBoth g player n s).1 alpha beta

/-- `min_value_ab(game, state, alpha, beta)` at the given fuel. -/
def min_value_ab {S A : Type} (g : AGame S A) (player : Int) (n : Nat) (s : S)
    (alpha beta : GVal) : GVal × Option A :=
  (abBoth g player n s).2 alpha beta

/-- `alpha_beta_search(game, state)`: `max_value_ab` from
`(float('-inf'), float('inf'))`. -/
def alpha_beta_search {S A : Type} (g : AGame S A) (n : Nat) (s : S) : Option A :=
  (max_value_ab g (g.to_move s) n s ⊥ gtop).2

/-- `n` bounds the game depth from `s`: every play from `s` reaches a
terminal state within `n` plies. This is the precondition under which the
fuel-indexed searches compute what the unbounded Python recursions
compute. -/
def boundedDepth {S A : Type} (g : AGame S A) : Nat → S → Bool
  | 0, s => g.is_terminal s
  | n + 1, s =>
      g.is_terminal s || (g.actions s).all fun a => boundedDepth g n (g.result s a)

/-! ## The three concrete games -/

/-- The halving game (`halving_game.py`). A state is `(player, number)`;
the class parameter `N` only fixes the initial state `(0, N)`. The two
actions decrement the number or halve it with floored division; the game
ends at `0`, and the winner is the player whose turn it is at the terminal
state. -/
def halvingGame : AGame (Int × Int) String :=
  { to_move := fun s => s.1
    actions := fun _ => ["--", "/2"]
    result := fun s a =>
      if a = "--" then ((s.1 + 1) % 2, s.2 - 1)
      else ((s.1 + 1) % 2, Int.fdiv s.2 2)
    is_terminal := fun s => s.2 == 0
    utility := fun s player => if s.1 == player then 1 else -1 }

/-- `Game.initial_state()` of the halving game with parameter `N`. -/
def halvingInitial (N : Int) : Int × Int := (0, N)

/-- `Game.utility(state, player)` of the halving game with its
`assert self.is_terminal(state)`: `none` models the `AssertionError`
raised on a non-terminal state. -/
def halvingUtility (s : Int × Int) (player : Int) : Option Int :=
  if s.2 == 0 then some (if s.1 == player then 1 else -1) else none

/-- One bucket-game list entry: a bucket name (string) or a number. -/
inductive BCell where
  | str (s : String)
  | num (n : Int)
deriving DecidableEq

/-- The bucket game (`bucket_game.py`). A state is `(player, buckets)`
where the list holds bucket names initially and numbers afterwards; the
actions are exactly the list entries. `result` on a string action other
than `'A'`/`'B'`/`'C'` would fail Python's `assert type(action) is int`;
such actions are never produced by `actions` on a reachable state. -/
def bucketGame : AGame (Int × List BCell) BCell :=
  { to_move := fun s => s.1
    actions := fun s => s.2
    result := fun s a =>
      match a with
      | BCell.str t =>
          if t = "A" then ((s.1 + 1) % 2, [BCell.num (-50), BCell.num 50])
          else if t = "B" then ((s.1 + 1) % 2, [BCell.num 3, BCell.num 1])
          else if t = "C" then ((s.1 + 1) % 2, [BCell.num (-5), BCell.num 15])
          else ((s.1 + 1) % 2, [a])
      | BCell.num _ => ((s.1 + 1) % 2, [a])
    is_terminal := fun s => s.2.length == 1
    utility := fun s player =>
      match s.2 with
      | [BCell.num n] => if player == s.1 then n else -n
      | _ => 0 }

/-- `Game.initial_state()` of the bucket game. -/
def bucketInitial : Int × List BCell :=
  (0, [BCell.str "A", BCell.str "B", BCell.str "C"])

/-- `Game.utility(state, player)` of the bucket game with both of its
assertions: `none` models the `AssertionError` raised when the state is
non-terminal (`assert self.is_terminal(state)`) or when the single
remaining entry is not a number (`assert type(actions[0]) is int`). -/
def bucketUtility (s : Int × List BCell) (player : Int) : Option Int :=
  if s.2.length == 1 then
    match s.2 with
    | [BCell.num n] => some (if player == s.1 then n else -n)
    | _ => none
  else none

/-- A tic-tac-toe board: three rows of three cells, a cell holding the
occupying player's index or `None`. -/
abbrev TBoard := List (List (Option Int))

/-- `board[row][col]` with Python's list indexing. -/
def tttCell (board : TBoard) (row col : Nat) : Option Int :=
  (board.getD row []).getD col none

/-- `Game.is_winner(state, player)` of tic-tac-toe: a full row, column,
main diagonal or anti-diagonal of `player`'s pieces. -/
def ttt_is_winner (s : Int × TBoard) (player : Int) : Bool :=
  ((List.range 3).any fun row =>
    (List.range 3).all fun col => tttCell s.2 row col == some player) ||
  ((List.range 3).any fun col =>
    (List.range 3).all fun row => tttCell s.2 row col == some player) ||
  ((List.range 3).all fun i => tttCell s.2 i i == some player) ||
  ((List.range 3).all fun i => tttCell s.2 i (2 - i) == some player)

/-- `Game.is_terminal(state)` of tic-tac-toe: the previous mover has won,
or the board is full. -/
def ttt_is_terminal (s : Int × TBoard) : Bool :=
  ttt_is_winner s ((s.1 + 1) % 2) ||
  (List.range 3).all fun row =>
    (List.range 3).all fun col => (tttCell s.2 row col).isSome

/-- `Game.utility(state, player)` of tic-tac-toe with its
`assert self.is_terminal(state)`: `none` models the `AssertionError`
raised on a non-terminal state. -/
def tttUtility (s : Int × TBoard) (player : Int) : Option Int :=
  if ttt_is_terminal s then
    some (if ttt_is_winner s player then 1
      else if ttt_is_winner s ((player + 1) % 2) then -1 else 0)
  else none

/-- The driver loop of `halving_game.py`: starting from the given state,
repeatedly run `minimax_search` for the player to move and apply the
returned action, until a terminal state is reached; the actions played and
the final state are collected. Minimax is given 6 plies of fuel, enough
for every state reachable from the `N = 5` initial state. The loop fuel
merely bounds the number of plays. -/
def halvingPlay : Nat → (Int × Int) → List String × (Int × Int)
  | 0, s => ([], s)
  | fuel + 1, s =>
      if halvingGame.is_terminal s then ([], s)
      else
        match minimax_search halvingGame 6 s with
        | some a =>
            let r := halvingPlay fuel (halvingGame.result s a)
            (a :: r.1, r.2)
        | none => ([], s)

/-! ## Solutions of a CSP instance -/

/-- Every variable of the instance is assigned (exactly one value, since
an assignment maps each variable to at most one value) and that value lies
in the variable's domain. -/
def domFit (vars : List String) (domains : Domains) (a : Assignment) : Bool :=
  vars.all fun v =>
    match a.lookup v with
    | some x => (domains v).contains x
    | none => false

/-- No binary constraint of the store is violated by any pair of assigned
values (the violation test of `CSP.is_consistent`, over all ordered
variable pairs). -/
def consistentAll (vars : List String) (bc : ConstraintMap) (a : Assignment) : Bool :=
  vars.all fun u =>
    vars.all fun w =>
      match a.lookup u, a.lookup w with
      | some x, some y => !(violatesConstraint bc u x w y)
      | _, _ => true

/-- A complete consistent assignment of the instance: every variable
carries exactly one value from its domain, and no binary constraint is
violated by any pair of assigned values. -/
def isSolution (csp : CSP) (a : Assignment) : Bool :=
  domFit csp.vars csp.domains a && consistentAll csp.vars csp.binary_constraints a

/-! ## Frame lemmas: the search mutates only counters and its assignment -/

theorem tryValues_frame (recur : CSP → Assignment → Option Assignment × CSP)
    (hrec : ∀ csp a, ((recur csp a).2.vars = csp.vars ∧
      (recur csp a).2.domains = csp.domains ∧
      (recur csp a).2.binary_constraints = csp.binary_constraints))
    (var : String) (assignment : Assignment) :
    ∀ (vals : List Int) (csp : CSP),
      ((tryValues recur var assignment vals csp).2.vars = csp.vars ∧
        (tryValues recur var assignment vals csp).2.domains = csp.domains ∧
        (tryValues recur var assignment vals csp).2.binary_constraints =
          csp.binary_constraints) := by
  intro vals
  induction vals with
  | nil => intro csp; exact ⟨rfl, rfl, rfl⟩
  | cons value rest ih =>
      intro csp
      simp only [tryValues]
      split
      · rcases h1 : recur csp ((var, value) :: assignment) with ⟨r, csp1⟩
        have hf := hrec csp ((var, value) :: assignment)
        rw [h1] at hf
        cases r with
        | some result => exact hf
        | none =>
            have := ih csp1
            exact ⟨this.1.trans hf.1, this.2.1.trans hf.2.1, this.2.2.trans hf.2.2⟩
      · exact ih csp

theorem backtrack_frame :
    ∀ (fuel : Nat) (csp : CSP) (assignment : Assignment),
      ((backtrack fuel csp assignment).2.vars = csp.vars ∧
        (backtrack fuel csp assignment).2.domains = csp.domains ∧
        (backtrack fuel csp assignment).2.binary_constraints =
          csp.binary_constraints) := by
  intro fuel
  induction fuel with
  | zero => intro csp a; exact ⟨rfl, rfl, rfl⟩
  | succ fuel ih =>
      intro csp a
      simp only [backtrack]
      split
      · exact ⟨rfl, rfl, rfl⟩
      · split
        · exact ⟨rfl, rfl, rfl⟩
        · exact tryValues_frame (backtrack fuel) ih _ a _ _

/-! ## Monotonicity of revision: domains only ever shrink -/

theorem reviseAux_apply_ne (bc : ConstraintMap) (Xi Xj v : String) (hv : v ≠ Xi) :
    ∀ (snapshot : List Int) (domains : Domains),
      (reviseAux bc Xi Xj snapshot domains).1 v = domains v := by
  intro snapshot
  induction snapshot with
  | nil => intro domains; rfl
  | cons x rest ih =>
      intro domains
      simp only [reviseAux]
      split
      · exact ih domains
      · show (reviseAux bc Xi Xj rest _).1 v = domains v
        rw [ih]
        simp [updateDomain, hv]

theorem reviseAux_sub (bc : ConstraintMap) (Xi Xj : String) :
    ∀ (snapshot : List Int) (domains : Domains) (v : String),
      (reviseAux bc Xi Xj snapshot domains).1 v ⊆ domains v := by
  intro snapshot
  induction snapshot with
  | nil => intro domains v; exact fun _ h => h
  | cons x rest ih =>
      intro domains v
      simp only [reviseAux]
      split
      · exact ih domains v
      · show (reviseAux bc Xi Xj rest _).1 v ⊆ domains v
        refine (ih _ v).trans ?_
        by_cases hv : v = Xi
        · subst hv
          simp only [updateDomain, if_pos]
          exact (List.filter_sublist _).subset
        · simp [updateDomain, hv]

theorem revise_sub (bc : ConstraintMap) (domains : Domains) (Xi Xj v : String) :
    (revise bc domains Xi Xj).1 v ⊆ domains v :=
  reviseAux_sub bc Xi Xj (domains Xi) domains v

theorem revise_apply_ne (bc : ConstraintMap) (domains : Domains)
    (Xi Xj v : String) (hv : v ≠ Xi) :
    (revise bc domains Xi Xj).1 v = domains v :=
  reviseAux_apply_ne bc Xi Xj v hv (domains Xi) domains

theorem ac3Loop_sub (vars : List String) (bc : ConstraintMap) :
    ∀ (fuel : Nat) (queue : List (String × String)) (domains : Domains) (v : String),
      (ac3Loop vars bc fuel queue domains).2 v ⊆ domains v := by
  intro fuel
  induction fuel with
  | zero => intro queue domains v; exact fun _ h => h
  | succ fuel ih =>
      intro queue domains v
      match queue with
      | [] => exact fun _ h => h
      | (Xi, Xj) :: rest =>
          simp only [ac3Loop]
          split
          · split
            · exact revise_sub bc domains Xi Xj v
            · exact (ih _ _ v).trans (revise_sub bc domains Xi Xj v)
          · exact (ih _ _ v).trans (revise_sub bc domains Xi Xj v)

/-- C5: after `ac_3` every domain is a subset of what it was, and
`backtracking_search` leaves every domain unchanged — no operation adds a
value to a domain after construction. -/
theorem ac3_domains_only_shrink (csp : CSP) (v : String) :
    (csp.ac_3).2.domains v ⊆ csp.domains v ∧
    (csp.backtracking_search).2.domains v = csp.domains v := by
  constructor
  · exact ac3Loop_sub csp.vars csp.binary_constraints _ _ csp.domains v
  · exact congrFun (backtrack_frame (csp.vars.length + 1) csp []).2.1 v

/-- C10: `backtracking_search` leaves the variables, the domains and the
binary constraints of the instance exactly as they were, whatever its
outcome; only the counters and its transient assignment change. -/
theorem backtracking_search_frame (csp : CSP) :
    (csp.backtracking_search).2.vars = csp.vars ∧
    (csp.backtracking_search).2.domains = csp.domains ∧
    (csp.backtracking_search).2.binary_constraints = csp.binary_constraints :=
  backtrack_frame (csp.vars.length + 1) csp []

/-- C3, counterexample: in the instance with variables `a, b`, domains
`{1, 2}` and the single declared edge `(a, b)`, the constraint key
`(a, b)` is present but the reversed arc `(b, a)` is not placed on the
initial worklist — the worklist holds one arc per declared edge, not two. -/
theorem ac3_initial_worklist_misses_reverse_arc :
    hasKey (CSP.make ["a", "b"] (fun _ => [1, 2]) [("a", "b")]).binary_constraints
        ("a", "b") = true ∧
    ("b", "a") ∉ initQueue (CSP.make ["a", "b"] (fun _ => [1, 2]) [("a", "b")]).vars
        (CSP.make ["a", "b"] (fun _ => [1, 2]) [("a", "b")]).binary_constraints := by
  decide

/-- C3, amended: the worklist is initialized with exactly the arcs
`(Xi, Xj)` over declared variables such that `(Xi, Xj)` itself is a
declared constraint key (one arc per declared edge, in its declared
orientation), and after a successful revision of `Xi` against `Xj`
exactly the arcs `(Xk, Xi)` with `Xk ≠ Xj` such that `(Xk, Xi)` itself is
a declared constraint key are re-enqueued. -/
theorem initQueue_mem (vars : List String) (bc : ConstraintMap)
    (p : String × String) :
    p ∈ initQueue vars bc ↔ p.1 ∈ vars ∧ p.2 ∈ vars ∧ hasKey bc p = true := by
  simp only [initQueue, List.mem_flatMap, List.mem_filterMap]
  constructor
  · rintro ⟨Xi, hXi, Xj, hXj, h⟩
    by_cases hk : hasKey bc (Xi, Xj) = true
    · rw [if_pos hk] at h
      cases h
      exact ⟨hXi, hXj, hk⟩
    · rw [if_neg hk] at h
      cases h
  · rintro ⟨h1, h2, h3⟩
    refine ⟨p.1, h1, p.2, h2, ?_⟩
    rw [if_pos (by rwa [Prod.mk.eta])]

theorem requeue_mem (vars : List String) (bc : ConstraintMap) (Xi Xj : String)
    (q : String × String) :
    q ∈ requeue vars bc Xi Xj ↔
      q.2 = Xi ∧ q.1 ∈ vars ∧ q.1 ≠ Xj ∧ hasKey bc (q.1, Xi) = true := by
  simp only [requeue, List.mem_map, List.mem_filter, Bool.and_eq_true,
    Bool.not_eq_true', beq_eq_false_iff_ne, ne_eq]
  constructor
  · rintro ⟨Xk, ⟨hmem, hne, hk⟩, rfl⟩
    exact ⟨rfl, hmem, hne, hk⟩
  · rintro ⟨h1, h2, h3, h4⟩
    exact ⟨q.1, ⟨h2, h3, h4⟩, by rw [← h1, Prod.mk.eta]⟩

/-- C3, amended: the worklist is initialized with exactly the arcs
`(Xi, Xj)` over declared variables such that `(Xi, Xj)` itself is a
declared constraint key (one arc per declared edge, in its declared
orientation), and after a successful revision of `Xi` against `Xj`
exactly the arcs `(Xk, Xi)` with `Xk ≠ Xj` such that `(Xk, Xi)` itself is
a declared constraint key are re-enqueued. -/
theorem ac3_worklist_arcs (vars : List String) (bc : ConstraintMap) :
    (∀ p : String × String,
      p ∈ initQueue vars bc ↔ p.1 ∈ vars ∧ p.2 ∈ vars ∧ hasKey bc p = true) ∧
    (∀ (Xi Xj : String) (q : String × String),
      q ∈ requeue vars bc Xi Xj ↔
        q.2 = Xi ∧ q.1 ∈ vars ∧ q.1 ≠ Xj ∧ hasKey bc (q.1, Xi) = true) :=
  ⟨initQueue_mem vars bc, fun Xi Xj => requeue_mem vars bc Xi Xj⟩

/-- Does the single remaining list entry of a terminal bucket-game state
hold a number (Python's `type(actions[0]) is int`)? -/
def bucketNumeric : List BCell → Bool
  | [BCell.num _] => true
  | _ => false

/-- C8, counterexample: the bucket-game state `(0, ['A'])` is terminal
(one entry remains), yet `utility` fails its `assert type(actions[0]) is
int` rather than returning a value. -/
theorem bucket_utility_fails_on_string_terminal :
    bucketGame.is_terminal (0, [BCell.str "A"]) = true ∧
    bucketUtility (0, [BCell.str "A"]) 0 = none := by
  decide

/-- C8, amended: for the halving game and tic-tac-toe, `utility` returns
normally exactly on terminal states and fails its assertion on every
non-terminal state; for the bucket game, `utility` returns normally
exactly on terminal states whose single remaining entry is a number (as
on every reachable terminal state) and fails its assertions otherwise. -/
theorem utility_asserts_terminal :
    (∀ (s : Int × Int) (player : Int),
      (halvingUtility s player).isSome = halvingGame.is_terminal s) ∧
    (∀ (s : Int × TBoard) (player : Int),
      (tttUtility s player).isSome = ttt_is_terminal s) ∧
    (∀ (s : Int × List BCell) (player : Int),
      (bucketUtility s player).isSome =
        (bucketGame.is_terminal s && bucketNumeric s.2)) := by
  refine ⟨fun s player => ?_, fun s player => ?_, fun s player => ?_⟩
  · unfold halvingUtility halvingGame
    split <;> simp_all
  · unfold tttUtility
    split <;> simp_all
  · unfold bucketUtility bucketGame bucketNumeric
    rcases s with ⟨p, l⟩
    dsimp only
    split
    · match l with
      | [] => simp_all
      | [BCell.num n] => simp_all
      | [BCell.str t] => simp_all
      | x :: y :: rest => simp_all
    · simp_all

/-- C9, counterexample: in the halving game with `N = 5`, minimax-optimal
play by both players reaches the terminal state after 4 actions, not 5. -/
theorem halving_play_is_not_five_plies :
    (halvingPlay 10 (halvingInitial 5)).1.length ≠ 5 := by
  decide

/-- C9, amended: in the halving game with `N = 5`, minimax-optimal play by
both players plays exactly the actions `--, --, /2, --` (4 plies,
visiting 5 states), ending at the number `0` with Player 1 to move and
Player 1 winning; 6 plies of minimax fuel bound the game depth from the
initial state. -/
theorem halving_optimal_play :
    halvingPlay 10 (halvingInitial 5) = (["--", "--", "/2", "--"], (0, 0)) ∧
    (halvingPlay 10 (halvingInitial 5)).1.length = 4 ∧
    halvingGame.is_terminal (0, 0) = true ∧
    halvingUtility (0, 0) 0 = some 1 ∧
    boundedDepth halvingGame 6 (halvingInitial 5) = true := by
  decide

/-! ## The alldiff edge generator -/

theorem flatMap_congr {α β : Type} {l : List α} {f g : α → List β}
    (h : ∀ a ∈ l, f a = g a) : l.flatMap f = l.flatMap g := by
  induction l with
  | nil => rfl
  | cons x xs ih =>
      rw [List.flatMap_cons, List.flatMap_cons, h x (List.mem_cons_self x xs),
        ih fun a ha => h a (List.mem_cons_of_mem x ha)]

theorem flatMap_map {α β : Type} (l : List α) (f : α → α) (g : α → List β) :
    (l.map f).flatMap g = l.flatMap fun a => g (f a) := by
  induction l with
  | nil => rfl
  | cons x xs ih => rw [List.map_cons, List.flatMap_cons, List.flatMap_cons, ih]

theorem range'_map_getD_shift {α : Type} (f : String → α) (v : String) (vs : List String) :
    ∀ (cnt s : Nat),
      (List.range' (s + 1) cnt).map (fun j => f ((v :: vs).getD j "")) =
        (List.range' s cnt).map (fun j => f (vs.getD j "")) := by
  intro cnt
  induction cnt with
  | zero => intro s; rfl
  | succ cnt ih =>
      intro s
      rw [List.range'_succ, List.range'_succ, List.map_cons, List.map_cons,
        List.getD_cons_succ, ih (s + 1)]

theorem range_map_getD {α : Type} :
    ∀ (l : List String) (f : String → α),
      (List.range l.length).map (fun j => f (l.getD j "")) = l.map f := by
  intro l
  induction l with
  | nil => intro f; rfl
  | cons v vs ih =>
      intro f
      rw [List.length_cons, List.range_succ_eq_map, List.map_cons, List.map_map]
      rw [show ((fun j => f ((v :: vs).getD j "")) ∘ Nat.succ) =
        fun j => f (vs.getD j "") from funext fun j => by simp, ih f]
      rfl

theorem alldiff_cons (v : String) (vs : List String) :
    alldiff (v :: vs) = vs.map (fun w => (v, w)) ++ alldiff vs := by
  cases vs with
  | nil => rfl
  | cons w ws =>
      have hlen : (v :: w :: ws).length - 1 = ws.length + 1 := rfl
      conv_lhs => rw [alldiff, hlen, List.range_succ_eq_map]
      rw [List.flatMap_cons, flatMap_map]
      congr 1
      · show (List.range' 1 (w :: ws).length).map
            (fun j => (v, (v :: w :: ws).getD j "")) = (w :: ws).map (fun x => (v, x))
        rw [range'_map_getD_shift (fun x => (v, x)) v (w :: ws) (w :: ws).length 0,
          ← List.range_eq_range']
        exact range_map_getD (w :: ws) (fun x => (v, x))
      · rw [alldiff]
        apply flatMap_congr
        intro i _
        show (List.range' (i + 2) ((v :: w :: ws).length - (i + 2))).map
            (fun j => ((w :: ws).getD i "", (v :: w :: ws).getD j "")) =
          (List.range' (i + 1) ((w :: ws).length - (i + 1))).map
            (fun j => ((w :: ws).getD i "", (w :: ws).getD j ""))
        rw [show (v :: w :: ws).length - (i + 2) = (w :: ws).length - (i + 1) from by
          simp only [List.length_cons]; omega]
        exact range'_map_getD_shift (fun x => ((w :: ws).getD i "", x)) v (w :: ws) _ _

theorem alldiff_mem :
    ∀ (vars : List String) (p : String × String),
      p ∈ alldiff vars → p.1 ∈ vars ∧ p.2 ∈ vars := by
  intro vars
  induction vars with
  | nil => intro p h; cases h
  | cons v vs ih =>
      intro p h
      rw [alldiff_cons] at h
      rcases List.mem_append.1 h with h | h
      · rcases List.mem_map.1 h with ⟨w, hw, rfl⟩
        exact ⟨List.mem_cons_self v vs, List.mem_cons_of_mem v hw⟩
      · exact ⟨List.mem_cons_of_mem v (ih p h).1, List.mem_cons_of_mem v (ih p h).2⟩

theorem alldiff_length :
    ∀ (vars : List String), (alldiff vars).length * 2 = vars.length * (vars.length - 1) := by
  intro vars
  induction vars with
  | nil => rfl
  | cons v vs ih =>
      rw [alldiff_cons, List.length_append, List.length_map, List.length_cons]
      rcases vs with _ | ⟨w, ws⟩
      · rfl
      · rw [List.length_cons] at ih ⊢
        have h2 : (ws.length + 1 + 1) * (ws.length + 1 + 1 - 1) =
            (ws.length + 1) * (ws.length + 1 - 1) + 2 * (ws.length + 1) := by
          rw [Nat.add_sub_cancel, Nat.add_sub_cancel]
          ring
        rw [h2]
        omega

theorem count_one_of_nodup {A : Type} [BEq A] [LawfulBEq A] :
    ∀ (l : List A) (b : A), l.Nodup → b ∈ l → l.count b = 1 := by
  intro l
  induction l with
  | nil => intro b _ h; cases h
  | cons x xs ih =>
      intro b hnd hm
      rw [List.nodup_cons] at hnd
      rw [List.count_cons]
      by_cases hbx : x = b
      · subst hbx
        rw [List.count_eq_zero.2 hnd.1, if_pos (by rw [beq_iff_eq])]
      · have hm2 : b ∈ xs := by
          rcases List.mem_cons.1 hm with h | h
          · exact absurd h.symm hbx
          · exact h
        rw [ih b hnd.2 hm2, if_neg (by rw [beq_iff_eq]; exact hbx)]

theorem count_map_pair (v : String) (b : String) :
    ∀ (vs : List String), (vs.map fun w => (v, w)).count (v, b) = vs.count b := by
  intro vs
  induction vs with
  | nil => rfl
  | cons x xs ih =>
      rw [List.map_cons, List.count_cons, List.count_cons, ih]
      by_cases h : x = b
      · subst h
        rw [if_pos (by rw [beq_iff_eq]), if_pos (by rw [beq_iff_eq])]
      · rw [if_neg (by rw [beq_iff_eq]; exact fun hc => h (congrArg Prod.snd hc)),
          if_neg (by rw [beq_iff_eq]; exact h)]

theorem alldiff_counts :
    ∀ (vars : List String), vars.Nodup →
      (∀ a : String, (alldiff vars).count (a, a) = 0) ∧
      (∀ a b : String, a ∈ vars → b ∈ vars → a ≠ b →
        (alldiff vars).count (a, b) + (alldiff vars).count (b, a) = 1) := by
  intro vars
  induction vars with
  | nil =>
      exact fun _ => ⟨fun a => rfl, fun a b h => absurd h (List.not_mem_nil a)⟩
  | cons v vs ih =>
      intro hnd
      rw [List.nodup_cons] at hnd
      obtain ⟨hv, hnd⟩ := hnd
      obtain ⟨ih1, ih2⟩ := ih hnd
      have hmapzero : ∀ p : String × String, p.1 ≠ v →
          (vs.map fun w => (v, w)).count p = 0 := by
        intro p hp
        rw [List.count_eq_zero]
        intro hmem
        rcases List.mem_map.1 hmem with ⟨w, _, rfl⟩
        exact hp rfl
      have hdiffzero : ∀ p : String × String, p.1 ∉ vs ∨ p.2 ∉ vs →
          (alldiff vs).count p = 0 := by
        intro p hp
        rw [List.count_eq_zero]
        intro hmem
        rcases alldiff_mem vs p hmem with ⟨h1, h2⟩
        rcases hp with hp | hp
        · exact hp h1
        · exact hp h2
      constructor
      · intro a
        rw [alldiff_cons, List.count_append, ih1 a]
        by_cases ha : a = v
        · subst ha
          rw [count_map_pair a a vs, List.count_eq_zero.2 hv]
        · rw [hmapzero (a, a) ha]
      · intro a b ha hb hab
        rw [alldiff_cons, List.count_append, List.count_append]
        rcases List.mem_cons.1 ha with ha1 | ha1
        · subst ha1
          rcases List.mem_cons.1 hb with hb1 | hb1
          · exact absurd hb1.symm hab
          · have e1 : (vs.map fun w => (a, w)).count (a, b) = 1 := by
              rw [count_map_pair a b vs]
              exact count_one_of_nodup vs b hnd hb1
            have e2 := hmapzero (b, a) (fun h => hab h.symm)
            have e3 := hdiffzero (a, b) (Or.inl hv)
            have e4 := hdiffzero (b, a) (Or.inr hv)
            omega
        · rcases List.mem_cons.1 hb with hb1 | hb1
          · subst hb1
            have e1 : (vs.map fun w => (b, w)).count (b, a) = 1 := by
              rw [count_map_pair b a vs]
              exact count_one_of_nodup vs a hnd ha1
            have e2 := hmapzero (a, b) hab
            have e3 := hdiffzero (a, b) (Or.inr hv)
            have e4 := hdiffzero (b, a) (Or.inl hv)
            omega
          · have hav : a ≠ v := fun h => hv (h ▸ ha1)
            have hbv : b ≠ v := fun h => hv (h ▸ hb1)
            have e1 := hmapzero (a, b) hav
            have e2 := hmapzero (b, a) hbv
            have e3 := ih2 a b ha1 hb1 hab
            omega

/-- C7: for a list of distinct variables, `alldiff` returns exactly
`n·(n−1)/2` edges; no self-pair occurs, and each unordered pair of
distinct input variables occurs exactly once (in exactly one of its two
orientations). -/
theorem alldiff_complete_pairwise (vars : List String) (h : vars.Nodup) :
    (alldiff vars).length = vars.length * (vars.length - 1) / 2 ∧
    (∀ a : String, (alldiff vars).count (a, a) = 0) ∧
    (∀ a b : String, a ∈ vars → b ∈ vars → a ≠ b →
      (alldiff vars).count (a, b) + (alldiff vars).count (b, a) = 1) := by
  refine ⟨?_, (alldiff_counts vars h).1, (alldiff_counts vars h).2⟩
  have h2 := alldiff_length vars
  generalize hM : vars.length * (vars.length - 1) = M at h2 ⊢
  omega

/-- C7, witness at the variables `X, Y, Z`. -/
theorem alldiff_complete_pairwise_check :
    (["X", "Y", "Z"] : List String).Nodup ∧
    ((alldiff ["X", "Y", "Z"]).length =
        (["X", "Y", "Z"] : List String).length *
          ((["X", "Y", "Z"] : List String).length - 1) / 2 ∧
      (∀ a : String, (alldiff ["X", "Y", "Z"]).count (a, a) = 0) ∧
      (∀ a b : String, a ∈ (["X", "Y", "Z"] : List String) →
        b ∈ (["X", "Y", "Z"] : List String) → a ≠ b →
        (alldiff ["X", "Y", "Z"]).count (a, b) +
          (alldiff ["X", "Y", "Z"]).count (b, a) = 1)) :=
  ⟨by decide, alldiff_complete_pairwise ["X", "Y", "Z"] (by decide)⟩

/-! ## Backtracking search: soundness -/

theorem lookup_cons_eq (k : String) (v : Int) (es : Assignment) (k2 : String) :
    List.lookup k2 ((k, v) :: es) = if k2 = k then some v else List.lookup k2 es := by
  rw [List.lookup_cons]
  by_cases h : k2 = k
  · rw [if_pos h, beq_iff_eq.2 h]
  · rw [if_neg h, beq_eq_false_iff_ne.2 h]

theorem lookup_mem : ∀ (l : Assignment) (k : String) (x : Int),
    l.lookup k = some x → (k, x) ∈ l := by
  intro l
  induction l with
  | nil => intro k x h; cases h
  | cons p es ih =>
      intro k x h
      rcases p with ⟨k1, v1⟩
      rw [lookup_cons_eq] at h
      by_cases hk : k = k1
      · subst hk
        rw [if_pos rfl] at h
        cases h
        exact List.mem_cons_self _ _
      · rw [if_neg hk] at h
        exact List.mem_cons_of_mem _ (ih k x h)

theorem lookup_none_not_mem : ∀ (l : Assignment) (k : String),
    l.lookup k = none → ∀ x : Int, (k, x) ∉ l := by
  intro l
  induction l with
  | nil => intro k _ x h; cases h
  | cons p es ih =>
      intro k h x hmem
      rcases p with ⟨k1, v1⟩
      rw [lookup_cons_eq] at h
      by_cases hk : k = k1
      · rw [if_pos hk] at h; cases h
      · rw [if_neg hk] at h
        rcases List.mem_cons.1 hmem with heq | hmem2
        · exact hk (congrArg Prod.fst heq)
        · exact ih k h x hmem2

theorem domFit_iff (V : List String) (D : Domains) (a : Assignment) :
    domFit V D a = true ↔ ∀ v ∈ V, ∃ x, a.lookup v = some x ∧ x ∈ D v := by
  rw [domFit, List.all_eq_true]
  constructor
  · intro h v hv
    have hval := h v hv
    rcases hx : a.lookup v with _ | x
    · rw [hx] at hval; simp at hval
    · rw [hx] at hval
      exact ⟨x, rfl, by simpa using hval⟩
  · intro h v hv
    obtain ⟨x, h1, h2⟩ := h v hv
    rw [h1]
    simpa using h2

theorem consistentAll_iff (V : List String) (B : ConstraintMap) (a : Assignment) :
    consistentAll V B a = true ↔
      ∀ u ∈ V, ∀ w ∈ V, ∀ x y, a.lookup u = some x → a.lookup w = some y →
        violatesConstraint B u x w y = false := by
  rw [consistentAll, List.all_eq_true]
  constructor
  · intro h u hu w hw x y hx hy
    have h2 := (List.all_eq_true.1 (h u hu)) w hw
    rw [hx, hy] at h2
    rwa [Bool.not_eq_true'] at h2
  · intro h u hu
    rw [List.all_eq_true]
    intro w hw
    rcases hx : a.lookup u with _ | x
    · simp
    · rcases hy : a.lookup w with _ | y
      · simp
      · rw [Bool.not_eq_true']
        exact h u hu w hw x y hx hy

theorem is_consistent_iff (csp : CSP) (value : Int) (var : String) (a : Assignment) :
    csp.is_consistent value var a = true ↔
      ∀ w ∈ csp.vars, ∀ y, a.lookup w = some y →
        violatesConstraint csp.binary_constraints var value w y = false := by
  rw [CSP.is_consistent, List.all_eq_true]
  constructor
  · intro h w hw y hy
    have h2 := h w hw
    rw [hy] at h2
    rwa [Bool.not_eq_true'] at h2
  · intro h w hw
    rcases hy : a.lookup w with _ | y
    · simp
    · simpa using h w hw y hy

theorem is_complete_iff (csp : CSP) (a : Assignment) :
    csp.is_complete a = true ↔ ∀ v ∈ csp.vars, (a.lookup v).isSome = true := by
  rw [CSP.is_complete, List.all_eq_true]

theorem violatesConstraint_symm (B : ConstraintMap) (u : String) (x : Int)
    (w : String) (y : Int) :
    violatesConstraint B u x w y = violatesConstraint B w y u x := by
  rw [violatesConstraint, violatesConstraint]
  exact Bool.or_comm _ _

theorem violatesConstraint_self (B : ConstraintMap)
    (hself : ∀ v : String, hasKey B (v, v) = false) (v : String) (x y : Int) :
    violatesConstraint B v x v y = false := by
  rw [violatesConstraint, hself v]
  rfl

theorem consistentAll_extend (V : List String) (B : ConstraintMap)
    (hself : ∀ v : String, hasKey B (v, v) = false)
    (a : Assignment) (var : String) (value : Int)
    (hcons : consistentAll V B a = true)
    (hcheck : ∀ w ∈ V, ∀ y, a.lookup w = some y →
      violatesConstraint B var value w y = false) :
    consistentAll V B ((var, value) :: a) = true := by
  rw [consistentAll_iff]
  intro u hu w hw x y hx hy
  rw [lookup_cons_eq] at hx hy
  by_cases hu2 : u = var
  · rw [if_pos hu2] at hx
    cases hx
    by_cases hw2 : w = var
    · rw [if_pos hw2] at hy
      cases hy
      rw [hu2, hw2]
      exact violatesConstraint_self B hself var value value
    · rw [if_neg hw2] at hy
      rw [hu2]
      exact hcheck w hw y hy
  · rw [if_neg hu2] at hx
    by_cases hw2 : w = var
    · rw [if_pos hw2] at hy
      cases hy
      rw [hw2]
      rw [violatesConstraint_symm]
      exact hcheck u hu x hx
    · rw [if_neg hw2] at hy
      exact (consistentAll_iff V B a).1 hcons u hu w hw x y hx hy

theorem domFit_of_complete (csp : CSP) (a : Assignment)
    (hcomp : csp.is_complete a = true)
    (hentries : ∀ p ∈ a, p.1 ∈ csp.vars ∧ p.2 ∈ csp.domains p.1) :
    domFit csp.vars csp.domains a = true := by
  rw [domFit_iff]
  intro v hv
  have h1 := (is_complete_iff csp a).1 hcomp v hv
  rcases Option.isSome_iff_exists.1 h1 with ⟨x, hx⟩
  exact ⟨x, hx, (hentries (v, x) (lookup_mem a v x hx)).2⟩

theorem select_some_spec (csp : CSP) (a : Assignment) (var : String)
    (h : csp.select_unassigned_variable a = some var) :
    var ∈ csp.vars ∧ a.lookup var = none := by
  refine ⟨List.mem_of_find?_eq_some h, ?_⟩
  have h2 := List.find?_some h
  rwa [Option.isNone_iff_eq_none] at h2

theorem select_isSome_of_not_complete (csp : CSP) (a : Assignment)
    (h : csp.is_complete a = false) :
    ∃ var, csp.select_unassigned_variable a = some var := by
  rw [CSP.is_complete, List.all_eq_false] at h
  obtain ⟨v, hv, hns⟩ := h
  have h2 : (csp.select_unassigned_variable a).isSome = true := by
    rw [CSP.select_unassigned_variable, List.find?_isSome]
    refine ⟨v, hv, ?_⟩
    simp only [Option.isNone_iff_eq_none]
    rcases hx : a.lookup v with _ | x
    · rfl
    · rw [hx] at hns
      simp at hns
  exact Option.isSome_iff_exists.1 h2

theorem backtrack_sound (V : List String) (D : Domains) (B : ConstraintMap)
    (hself : ∀ v : String, hasKey B (v, v) = false) :
    ∀ (fuel : Nat) (csp : CSP) (a sol : Assignment),
      csp.vars = V → csp.domains = D → csp.binary_constraints = B →
      (∀ p ∈ a, p.1 ∈ V ∧ p.2 ∈ D p.1) →
      (a.map Prod.fst).Nodup →
      consistentAll V B a = true →
      (backtrack fuel csp a).1 = some sol →
      domFit V D sol = true ∧ consistentAll V B sol = true ∧
        (sol.map Prod.fst).Nodup ∧ (∀ p ∈ sol, p.1 ∈ V) := by
  intro fuel
  induction fuel with
  | zero => intro csp a sol _ _ _ _ _ _ h; cases h
  | succ fuel ih =>
      intro csp a sol hV hD hB hentries hnd hcons hres
      simp only [backtrack] at hres
      split at hres
      case isTrue hcomp =>
        have hsol : a = sol := by simpa using hres
        subst hsol
        refine ⟨?_, hcons, hnd, fun p hp => (hentries p hp).1⟩
        rw [← hV, ← hD]
        refine domFit_of_complete csp a hcomp ?_
        rw [hV, hD]
        exact hentries
      case isFalse hcomp =>
        split at hres
        case h_1 heq => simp at hres
        case h_2 var heq =>
          obtain ⟨hvarV0, hvarnone⟩ :=
            select_some_spec { csp with backtrack_counter := csp.backtrack_counter + 1 }
              a var heq
          have hvarV : var ∈ V := by rwa [← hV]
          have inner : ∀ (vals : List Int), (∀ x ∈ vals, x ∈ D var) →
              ∀ (csp2 : CSP), csp2.vars = V → csp2.domains = D →
                csp2.binary_constraints = B →
                (tryValues (backtrack fuel) var a vals csp2).1 = some sol →
                domFit V D sol = true ∧ consistentAll V B sol = true ∧
                  (sol.map Prod.fst).Nodup ∧ (∀ p ∈ sol, p.1 ∈ V) := by
            intro vals
            induction vals with
            | nil => intro _ csp2 _ _ _ hres2; simp [tryValues] at hres2
            | cons value rest ihv =>
                intro hvals csp2 h2V h2D h2B hres2
                simp only [tryValues] at hres2
                split at hres2
                case isTrue hcond =>
                  rcases hbt : backtrack fuel csp2 ((var, value) :: a) with ⟨r, csp3⟩
                  rw [hbt] at hres2
                  cases r with
                  | some rsol =>
                      have hrs : rsol = sol := by simpa using hres2
                      subst hrs
                      have hcheck : ∀ w ∈ V, ∀ y, a.lookup w = some y →
                          violatesConstraint B var value w y = false := by
                        have h3 := (is_consistent_iff csp2 value var a).1 hcond
                        rwa [h2V, h2B] at h3
                      refine ih csp2 ((var, value) :: a) rsol h2V h2D h2B ?_ ?_ ?_
                        (by rw [hbt])
                      · intro p hp
                        rcases List.mem_cons.1 hp with rfl | hp2
                        · exact ⟨hvarV, hvals value (List.mem_cons_self value rest)⟩
                        · exact hentries p hp2
                      · rw [List.map_cons, List.nodup_cons]
                        refine ⟨?_, hnd⟩
                        intro hkm
                        rcases List.mem_map.1 hkm with ⟨p, hp, hfst⟩
                        exact lookup_none_not_mem a var hvarnone p.2
                          (by rwa [show ((var, p.2) : String × Int) = p from
                            Prod.ext hfst.symm rfl])
                      · exact consistentAll_extend V B hself a var value hcons hcheck
                  | none =>
                      have hf := backtrack_frame fuel csp2 ((var, value) :: a)
                      rw [hbt] at hf
                      exact ihv (fun x hx => hvals x (List.mem_cons_of_mem value hx)) csp3
                        (hf.1.trans h2V) (hf.2.1.trans h2D) (hf.2.2.trans h2B) hres2
                case isFalse hcond =>
                  exact ihv (fun x hx => hvals x (List.mem_cons_of_mem value hx)) csp2
                    h2V h2D h2B hres2
          refine inner _ ?_ { csp with backtrack_counter := csp.backtrack_counter + 1 }
            hV hD hB hres
          intro x hx
          rw [CSP.order_domain_values] at hx
          rw [← hD]
          exact hx

/-! ## Backtracking search: failure accounting -/

theorem tryValues_fail_mono (recur : CSP → Assignment → Option Assignment × CSP)
    (hrec : ∀ csp a, csp.fail_counter ≤ (recur csp a).2.fail_counter)
    (var : String) (a : Assignment) :
    ∀ (vals : List Int) (csp : CSP),
      csp.fail_counter ≤ (tryValues recur var a vals csp).2.fail_counter := by
  intro vals
  induction vals with
  | nil => intro csp; exact Nat.le_succ _
  | cons value rest ihv =>
      intro csp
      simp only [tryValues]
      split
      · rcases h : recur csp ((var, value) :: a) with ⟨r, csp1⟩
        have hr := hrec csp ((var, value) :: a)
        rw [h] at hr
        cases r with
        | some rsol => exact hr
        | none => exact hr.trans (ihv csp1)
      · exact ihv csp

theorem backtrack_fail_mono :
    ∀ (fuel : Nat) (csp : CSP) (a : Assignment),
      csp.fail_counter ≤ (backtrack fuel csp a).2.fail_counter := by
  intro fuel
  induction fuel with
  | zero => intro csp a; exact le_rfl
  | succ fuel ih =>
      intro csp a
      simp only [backtrack]
      split
      · exact le_rfl
      · split
        · exact le_rfl
        · exact tryValues_fail_mono (backtrack fuel) ih _ a _
            { csp with backtrack_counter := csp.backtrack_counter + 1 }

theorem tryValues_none_fail (fuel : Nat) (var : String) (a : Assignment) :
    ∀ (vals : List Int) (csp : CSP),
      (tryValues (backtrack fuel) var a vals csp).1 = none →
      csp.fail_counter < (tryValues (backtrack fuel) var a vals csp).2.fail_counter := by
  intro vals
  induction vals with
  | nil => intro csp _; exact Nat.lt_succ_self _
  | cons value rest ihv =>
      intro csp hres
      simp only [tryValues] at hres ⊢
      split at hres
      case isTrue hcond =>
        rw [if_pos hcond]
        rcases hbt : backtrack fuel csp ((var, value) :: a) with ⟨r, csp1⟩
        rw [hbt] at hres
        cases r with
        | some rsol => exact Option.noConfusion hres
        | none =>
            have h1 := backtrack_fail_mono fuel csp ((var, value) :: a)
            rw [hbt] at h1
            exact Nat.lt_of_le_of_lt h1 (ihv csp1 hres)
      case isFalse hcond =>
        rw [if_neg hcond]
        exact ihv csp hres

theorem backtrack_none_fail (fuel : Nat) (csp : CSP) (a : Assignment)
    (hfuel : 0 < fuel) (hres : (backtrack fuel csp a).1 = none) :
    csp.fail_counter < (backtrack fuel csp a).2.fail_counter := by
  match fuel, hfuel with
  | fuel + 1, _ =>
      simp only [backtrack] at hres ⊢
      split at hres
      case isTrue hcomp => simp at hres
      case isFalse hcomp =>
        split at hres
        case h_1 heq =>
            exfalso
            obtain ⟨var, hvar⟩ := select_isSome_of_not_complete _ a
              (Bool.eq_false_iff.2 hcomp)
            rw [hvar] at heq
            cases heq
        case h_2 var heq =>
            rw [if_neg hcomp]
            exact tryValues_none_fail fuel var a _
              { csp with backtrack_counter := csp.backtrack_counter + 1 } hres

theorem consistentAll_nil (V : List String) (B : ConstraintMap) :
    consistentAll V B [] = true := by
  rw [consistentAll_iff]
  intro u _ w _ x y hx
  cases hx

theorem make_no_self_key (vs : List String) (D : Domains)
    (edges : List (String × String)) (hedges : ∀ e ∈ edges, e.1 ≠ e.2)
    (v : String) :
    hasKey (CSP.make vs D edges).binary_constraints (v, v) = false := by
  rw [CSP.make, hasKey, List.any_eq_false]
  intro entry hentry
  rcases List.mem_map.1 hentry with ⟨e, he, rfl⟩
  simp only [beq_iff_eq]
  intro hc
  exact hedges e he (by rw [hc])

/-- C1, counterexample: the instance with the single variable `a`, domain
`{1}` and the self-edge `(a, a)` has no consistent complete assignment
(the self-constraint's pair set is empty), yet `backtracking_search`
returns the assignment `{a: 1}`, which violates the declared binary
constraint `(a, a)` at the assigned value pair `(1, 1)`. -/
theorem backtracking_search_self_edge_cex :
    ((CSP.make ["a"] (fun _ => [1]) [("a", "a")]).backtracking_search).1 =
        some [("a", 1)] ∧
    violatesConstraint (CSP.make ["a"] (fun _ => [1]) [("a", "a")]).binary_constraints
        "a" 1 "a" 1 = true ∧
    (∀ σ : Assignment, isSolution (CSP.make ["a"] (fun _ => [1]) [("a", "a")]) σ = false) := by
  refine ⟨by decide, by decide, ?_⟩
  intro σ
  by_contra hcontra
  rw [Bool.not_eq_false, isSolution, Bool.and_eq_true] at hcontra
  obtain ⟨hfit, hcons⟩ := hcontra
  rw [domFit_iff] at hfit
  obtain ⟨x, hx1, hx2⟩ := hfit "a" (by decide)
  have hx : x = 1 := by simpa [CSP.make] using hx2
  subst hx
  have hviol := (consistentAll_iff _ _ σ).1 hcons "a" (by decide) "a" (by decide)
    1 1 hx1 hx1
  exact absurd hviol (by decide)

/-- C1, amended: for every instance whose declared edges all join two
distinct variables, any assignment returned by `backtracking_search` is a
complete consistent assignment (each variable exactly one value from its
domain, no binary constraint violated by any pair of assigned values);
and if the instance has no consistent complete assignment the search
returns `None` with `fail_counter` strictly positive afterwards. -/
theorem backtracking_search_correct (vs : List String) (D : Domains)
    (edges : List (String × String)) (hedges : ∀ e ∈ edges, e.1 ≠ e.2) :
    (∀ sol : Assignment,
      ((CSP.make vs D edges).backtracking_search).1 = some sol →
        isSolution (CSP.make vs D edges) sol = true ∧ (sol.map Prod.fst).Nodup) ∧
    ((∀ σ : Assignment, isSolution (CSP.make vs D edges) σ = false) →
      ((CSP.make vs D edges).backtracking_search).1 = none ∧
        0 < ((CSP.make vs D edges).backtracking_search).2.fail_counter) := by
  have hself := make_no_self_key vs D edges hedges
  have hsound : ∀ sol : Assignment,
      ((CSP.make vs D edges).backtracking_search).1 = some sol →
        isSolution (CSP.make vs D edges) sol = true ∧ (sol.map Prod.fst).Nodup := by
    intro sol hres
    have h := backtrack_sound (CSP.make vs D edges).vars (CSP.make vs D edges).domains
      (CSP.make vs D edges).binary_constraints hself
      ((CSP.make vs D edges).vars.length + 1) (CSP.make vs D edges) [] sol
      rfl rfl rfl (fun p hp => absurd hp (List.not_mem_nil p)) List.nodup_nil
      (consistentAll_nil _ _) hres
    refine ⟨?_, h.2.2.1⟩
    rw [isSolution, h.1, h.2.1]
    rfl
  refine ⟨hsound, ?_⟩
  intro hnosol
  have hres : ((CSP.make vs D edges).backtracking_search).1 = none := by
    rcases hcase : ((CSP.make vs D edges).backtracking_search).1 with _ | sol
    · rfl
    · exfalso
      have htrue := (hsound sol hcase).1
      rw [hnosol sol] at htrue
      exact Bool.noConfusion htrue
  refine ⟨hres, ?_⟩
  have h2 := backtrack_none_fail ((CSP.make vs D edges).vars.length + 1)
    (CSP.make vs D edges) [] (Nat.succ_pos _) hres
  exact Nat.lt_of_le_of_lt (Nat.zero_le _) h2

/-- C1, witness at the satisfiable instance with variables `a, b`, domains
`{1, 2}` and the not-equal edge `(a, b)`. -/
theorem backtracking_search_correct_check :
    (∀ e ∈ [(("a" : String), ("b" : String))], e.1 ≠ e.2) ∧
    ((∀ sol : Assignment,
      ((CSP.make ["a", "b"] (fun _ => [1, 2]) [("a", "b")]).backtracking_search).1 =
          some sol →
        isSolution (CSP.make ["a", "b"] (fun _ => [1, 2]) [("a", "b")]) sol = true ∧
          (sol.map Prod.fst).Nodup) ∧
    ((∀ σ : Assignment,
        isSolution (CSP.make ["a", "b"] (fun _ => [1, 2]) [("a", "b")]) σ = false) →
      ((CSP.make ["a", "b"] (fun _ => [1, 2]) [("a", "b")]).backtracking_search).1 =
          none ∧
        0 < ((CSP.make ["a", "b"] (fun _ => [1, 2])
          [("a", "b")]).backtracking_search).2.fail_counter)) :=
  ⟨by decide,
    backtracking_search_correct ["a", "b"] (fun _ => [1, 2]) [("a", "b")] (by decide)⟩

/-! ## Fuel fidelity of the backtracking embedding -/

theorem length_filter_lt {α : Type} (p q : α → Bool) (x : α)
    (himp : ∀ y, q y = true → p y = true)
    (hpx : p x = true) (hqx : q x = false) :
    ∀ l : List α, x ∈ l → (l.filter q).length < (l.filter p).length := by
  intro l
  induction l with
  | nil => intro h; cases h
  | cons z zs ih =>
      intro hmem
      rw [List.filter_cons, List.filter_cons]
      rcases List.mem_cons.1 hmem with rfl | hmem2
      · rw [if_pos hpx, if_neg (by simp [hqx]), List.length_cons]
        exact Nat.lt_succ_of_le (List.monotone_filter_right zs himp).length_le
      · by_cases hq : q z = true
        · rw [if_pos hq, if_pos (himp z hq), List.length_cons, List.length_cons]
          exact Nat.succ_lt_succ (ih hmem2)
        · rw [if_neg hq]
          by_cases hp : p z = true
          · rw [if_pos hp, List.length_cons]
            exact (ih hmem2).trans (Nat.lt_succ_self _)
          · rw [if_neg hp]
            exact ih hmem2

/-- Number of not-yet-assigned declared variables: the quantity that
strictly decreases at each level of the `backtrack` recursion. -/
def unassignedCount (V : List String) (a : Assignment) : Nat :=
  (V.filter fun v => (a.lookup v).isNone).length

theorem unassignedCount_insert (V : List String) (a : Assignment) (var : String)
    (value : Int) (hvarV : var ∈ V) (hnone : a.lookup var = none) :
    unassignedCount V ((var, value) :: a) < unassignedCount V a := by
  refine length_filter_lt _ _ var ?_ ?_ ?_ V hvarV
  · intro y hy
    rw [lookup_cons_eq] at hy
    by_cases h : y = var
    · rw [if_pos h] at hy
      simp at hy
    · rwa [if_neg h] at hy
  · rw [hnone]
    rfl
  · rw [lookup_cons_eq, if_pos rfl]
    rfl

theorem backtrack_fuel_irrelevant :
    ∀ (fuel fuel2 : Nat) (csp : CSP) (a : Assignment),
      unassignedCount csp.vars a < fuel → unassignedCount csp.vars a < fuel2 →
      backtrack fuel csp a = backtrack fuel2 csp a := by
  intro fuel
  induction fuel with
  | zero => intro fuel2 csp a h1 _; exact absurd h1 (Nat.not_lt_zero _)
  | succ fuel ih =>
      intro fuel2 csp a h1 h2
      match fuel2, h2 with
      | fuel2 + 1, h2 =>
          simp only [backtrack]
          by_cases hcomp :
            (CSP.is_complete { csp with backtrack_counter := csp.backtrack_counter + 1 } a) = true
          · rw [if_pos hcomp, if_pos hcomp]
          · rw [if_neg hcomp, if_neg hcomp]
            rcases hsel : CSP.select_unassigned_variable
                { csp with backtrack_counter := csp.backtrack_counter + 1 } a with _ | var
            · rfl
            · obtain ⟨hvarV, hvarnone⟩ := select_some_spec _ a var hsel
              have hvarV2 : var ∈ csp.vars := hvarV
              have inner : ∀ (vals : List Int) (csp2 : CSP), csp2.vars = csp.vars →
                  tryValues (backtrack fuel) var a vals csp2 =
                    tryValues (backtrack fuel2) var a vals csp2 := by
                intro vals
                induction vals with
                | nil => intro csp2 _; rfl
                | cons value rest ihv =>
                    intro csp2 h2V
                    simp only [tryValues]
                    by_cases hcond : csp2.is_consistent value var a = true
                    · rw [if_pos hcond, if_pos hcond]
                      have hcnt := unassignedCount_insert csp.vars a var value hvarV2 hvarnone
                      have hrec := ih fuel2 csp2 ((var, value) :: a)
                        (by rw [h2V]; exact Nat.lt_of_lt_of_le hcnt (Nat.lt_succ_iff.1 h1))
                        (by rw [h2V]; exact Nat.lt_of_lt_of_le hcnt (Nat.lt_succ_iff.1 h2))
                      rw [hrec]
                      rcases hbt : backtrack fuel2 csp2 ((var, value) :: a) with ⟨r, csp3⟩
                      cases r with
                      | some rsol => rfl
                      | none =>
                          have hf := backtrack_frame fuel2 csp2 ((var, value) :: a)
                          rw [hbt] at hf
                          exact ihv csp3 (hf.1.trans h2V)
                    · rw [if_neg hcond, if_neg hcond]
                      exact ihv csp2 h2V
              exact inner _ _ rfl

/-- Fidelity of the fuel-based embedding of `backtrack`: the fuel chosen
by `backtracking_search` is interchangeable with any other sufficient
amount, so the fuel-exhausted branch never influences the result. -/
theorem backtracking_search_fuel_sufficient (csp : CSP) (fuel : Nat)
    (h : csp.vars.length < fuel) :
    csp.backtracking_search = backtrack fuel csp [] := by
  rw [CSP.backtracking_search]
  apply backtrack_fuel_irrelevant
  · exact Nat.lt_succ_of_le (List.length_filter_le _ _)
  · exact Nat.lt_of_le_of_lt (List.length_filter_le _ _) h

/-! ## AC-3 soundness: no removed value participates in any solution -/

theorem contains_of_not_violates (B : ConstraintMap) (u : String) (x : Int)
    (w : String) (y : Int) (hkey : hasKey B (u, w) = true)
    (h : violatesConstraint B u x w y = false) :
    (getConstraint B (u, w)).contains (x, y) = true := by
  rw [violatesConstraint, Bool.or_eq_false_iff] at h
  have h1 := h.1
  rw [hkey, Bool.true_and] at h1
  simpa using h1

theorem ac_3_vars (csp : CSP) : (csp.ac_3).2.vars = csp.vars := rfl

theorem ac_3_bc (csp : CSP) :
    (csp.ac_3).2.binary_constraints = csp.binary_constraints := rfl

theorem ac_3_domains (csp : CSP) :
    (csp.ac_3).2.domains =
      (ac3Loop csp.vars csp.binary_constraints
        (ac3Fuel csp.vars (initQueue csp.vars csp.binary_constraints) csp.domains)
        (initQueue csp.vars csp.binary_constraints) csp.domains).2 := rfl

theorem reviseAux_preserves_fit (V : List String) (bc : ConstraintMap)
    (a : Assignment) (Xi Xj : String) (hXj : Xj ∈ V)
    (hkey : hasKey bc (Xi, Xj) = true)
    (hcons : consistentAll V bc a = true) (hXi : Xi ∈ V) :
    ∀ (snapshot : List Int) (domains : Domains),
      (∀ v ∈ V, ∃ x, a.lookup v = some x ∧ x ∈ domains v) →
      ∀ v ∈ V, ∃ x, a.lookup v = some x ∧ x ∈ (reviseAux bc Xi Xj snapshot domains).1 v := by
  intro snapshot
  induction snapshot with
  | nil => intro domains hfit; exact hfit
  | cons x rest ih =>
      intro domains hfit
      simp only [reviseAux]
      split
      · exact ih domains hfit
      case isFalse hno =>
        show ∀ v ∈ V, ∃ z, a.lookup v = some z ∧
          z ∈ (reviseAux bc Xi Xj rest
            (updateDomain domains Xi ((domains Xi).filter fun w => !(w == x)))).1 v
        refine ih _ ?_
        intro v hv
        obtain ⟨z, hz1, hz2⟩ := hfit v hv
        refine ⟨z, hz1, ?_⟩
        rw [updateDomain]
        by_cases hvXi : v = Xi
        · rw [if_pos hvXi]
          rw [List.mem_filter]
          refine ⟨by rwa [← hvXi], ?_⟩
          simp only [Bool.not_eq_eq_eq_not, Bool.not_true, beq_eq_false_iff_ne, ne_eq]
          intro hzx
          subst hzx
          obtain ⟨y, hy1, hy2⟩ := hfit Xj hXj
          have hviol := (consistentAll_iff V bc a).1 hcons Xi hXi Xj hXj z y
            (by rwa [hvXi] at hz1) hy1
          have hcontains := contains_of_not_violates bc Xi z Xj y hkey hviol
          exact hno (List.any_eq_true.2 ⟨y, hy2, hcontains⟩)
        · rw [if_neg hvXi]
          exact hz2

theorem ac3Loop_preserves_fit (V : List String) (bc : ConstraintMap)
    (a : Assignment) (hcons : consistentAll V bc a = true) :
    ∀ (fuel : Nat) (queue : List (String × String)) (domains : Domains),
      (∀ p ∈ queue, p.1 ∈ V ∧ p.2 ∈ V ∧ hasKey bc p = true) →
      (∀ v ∈ V, ∃ x, a.lookup v = some x ∧ x ∈ domains v) →
      ∀ v ∈ V, ∃ x, a.lookup v = some x ∧ x ∈ (ac3Loop V bc fuel queue domains).2 v := by
  intro fuel
  induction fuel with
  | zero => intro queue domains _ hfit; exact hfit
  | succ fuel ih =>
      intro queue domains hq hfit
      match queue with
      | [] => exact hfit
      | (Xi, Xj) :: rest =>
          obtain ⟨hXi, hXj, hkey⟩ := hq (Xi, Xj) (List.mem_cons_self _ _)
          have hfit2 := reviseAux_preserves_fit V bc a Xi Xj hXj hkey hcons hXi
            (domains Xi) domains hfit
          simp only [ac3Loop]
          split
          · split
            · exact hfit2
            · refine ih _ _ ?_ hfit2
              intro p hp
              rcases List.mem_append.1 hp with hp | hp
              · exact hq p (List.mem_cons_of_mem _ hp)
              · obtain ⟨h1, h2, _, h4⟩ := (requeue_mem V bc Xi Xj p).1 hp
                exact ⟨h2, by rwa [h1], by rwa [show ((p.1, Xi) : String × String) =
                  p from by rw [← h1, Prod.mk.eta]] at h4⟩
          · refine ih _ _ ?_ hfit2
            intro p hp
            exact hq p (List.mem_cons_of_mem _ hp)

/-- C2: running `ac_3` leaves the set of complete consistent assignments
of the instance unchanged — every value it removes from a domain
participates in no solution of the original problem. -/
theorem ac3_preserves_solutions (csp : CSP) (a : Assignment) :
    isSolution csp a = isSolution (csp.ac_3).2 a := by
  rw [isSolution, isSolution, ac_3_vars, ac_3_bc, ac_3_domains]
  cases hca : consistentAll csp.vars csp.binary_constraints a with
  | false => rw [Bool.and_false, Bool.and_false]
  | true =>
      rw [Bool.and_true, Bool.and_true]
      cases hfit : domFit csp.vars csp.domains a with
      | true =>
          symm
          rw [domFit_iff]
          rw [domFit_iff] at hfit
          exact ac3Loop_preserves_fit csp.vars csp.binary_constraints a hca _ _
            csp.domains (fun p hp => (initQueue_mem csp.vars csp.binary_constraints p).1 hp)
            hfit
      | false =>
          symm
          rw [Bool.eq_false_iff]
          intro hfit2
          rw [domFit_iff] at hfit2
          have hfit3 : domFit csp.vars csp.domains a = true := by
            rw [domFit_iff]
            intro v hv
            obtain ⟨x, h1, h2⟩ := hfit2 v hv
            exact ⟨x, h1, ac3Loop_sub csp.vars csp.binary_constraints _ _ csp.domains v h2⟩
          rw [hfit] at hfit3
          exact Bool.noConfusion hfit3

/-! ## AC-3 reaches an arc-consistent fixpoint when it returns true -/

/-- Arc consistency of the ordered arc `(u, w)`: every value in `u`'s
domain has a compatible partner in `w`'s domain under the constraint
stored at the key `(u, w)`. -/
def arcConsistent (bc : ConstraintMap) (domains : Domains) (u w : String) : Prop :=
  ∀ x ∈ domains u, ∃ y ∈ domains w,
    (getConstraint bc (u, w)).contains (x, y) = true

theorem reviseAux_false_eq (bc : ConstraintMap) (Xi Xj : String) :
    ∀ (snapshot : List Int) (domains : Domains),
      (reviseAux bc Xi Xj snapshot domains).2 = false →
      (reviseAux bc Xi Xj snapshot domains).1 = domains := by
  intro snapshot
  induction snapshot with
  | nil => intro domains _; rfl
  | cons x rest ih =>
      intro domains hflag
      simp only [reviseAux] at hflag ⊢
      split at hflag
      case isTrue h => rw [if_pos h]; exact ih domains hflag
      case isFalse h => exact Bool.noConfusion hflag

theorem reviseAux_false_supported (bc : ConstraintMap) (Xi Xj : String) :
    ∀ (snapshot : List Int) (domains : Domains),
      (reviseAux bc Xi Xj snapshot domains).2 = false →
      ∀ x ∈ snapshot,
        (domains Xj).any (fun y => (getConstraint bc (Xi, Xj)).contains (x, y)) = true := by
  intro snapshot
  induction snapshot with
  | nil => intro domains _ x hx; cases hx
  | cons z rest ih =>
      intro domains hflag x hx
      simp only [reviseAux] at hflag
      split at hflag
      case isTrue h =>
          rcases List.mem_cons.1 hx with rfl | hx2
          · exact h
          · exact ih domains hflag x hx2
      case isFalse h => exact Bool.noConfusion hflag

theorem revise_noop_of_consistent (bc : ConstraintMap) (domains : Domains)
    (Xi Xj : String) (h : arcConsistent bc domains Xi Xj) :
    revise bc domains Xi Xj = (domains, false) := by
  rw [revise]
  suffices h2 : ∀ snapshot : List Int, (∀ x ∈ snapshot, x ∈ domains Xi) →
      reviseAux bc Xi Xj snapshot domains = (domains, false) by
    exact h2 (domains Xi) (fun x hx => hx)
  intro snapshot
  induction snapshot with
  | nil => intro _; rfl
  | cons z rest ih =>
      intro hsub
      obtain ⟨y, hy, hc⟩ := h z (hsub z (List.mem_cons_self z rest))
      simp only [reviseAux]
      rw [if_pos (List.any_eq_true.2 ⟨y, hy, hc⟩)]
      exact ih fun x hx => hsub x (List.mem_cons_of_mem z hx)

theorem reviseAux_mem_support (bc : ConstraintMap) (Xi Xj : String) (hne : Xj ≠ Xi) :
    ∀ (snapshot : List Int) (domains : Domains) (x : Int),
      x ∈ (reviseAux bc Xi Xj snapshot domains).1 Xi →
      x ∈ domains Xi ∧ (x ∈ snapshot →
        (domains Xj).any (fun y => (getConstraint bc (Xi, Xj)).contains (x, y)) = true) := by
  intro snapshot
  induction snapshot with
  | nil => intro domains x hx; exact ⟨hx, fun h => absurd h (List.not_mem_nil x)⟩
  | cons z rest ih =>
      intro domains x hx
      simp only [reviseAux] at hx
      split at hx
      case isTrue h =>
          obtain ⟨h1, h2⟩ := ih domains x hx
          refine ⟨h1, fun hmem => ?_⟩
          rcases List.mem_cons.1 hmem with rfl | hmem2
          · exact h
          · exact h2 hmem2
      case isFalse h =>
          obtain ⟨h1, h2⟩ := ih _ x hx
          rw [updateDomain, if_pos rfl, List.mem_filter] at h1
          have hxz : x ≠ z := by
            have := h1.2
            simpa using this
          have hXj : updateDomain domains Xi ((domains Xi).filter fun w => !(w == z)) Xj =
              domains Xj := by
            rw [updateDomain, if_neg hne]
          refine ⟨h1.1, fun hmem => ?_⟩
          rcases List.mem_cons.1 hmem with rfl | hmem2
          · exact absurd rfl hxz
          · rw [← hXj]
            exact h2 hmem2

theorem revise_survivors_supported (bc : ConstraintMap) (domains : Domains)
    (Xi Xj : String) (hne : Xj ≠ Xi) :
    ∀ x ∈ (revise bc domains Xi Xj).1 Xi,
      (domains Xj).any (fun y => (getConstraint bc (Xi, Xj)).contains (x, y)) = true := by
  intro x hx
  have h := reviseAux_mem_support bc Xi Xj hne (domains Xi) domains x hx
  exact h.2 h.1

theorem reviseAux_removed_unsupported (bc : ConstraintMap) (Xi Xj : String)
    (hne : Xj ≠ Xi) :
    ∀ (snapshot : List Int) (domains : Domains) (x : Int),
      x ∈ domains Xi → x ∉ (reviseAux bc Xi Xj snapshot domains).1 Xi →
      (domains Xj).any (fun y => (getConstraint bc (Xi, Xj)).contains (x, y)) = false := by
  intro snapshot
  induction snapshot with
  | nil => intro domains x hx hnx; exact absurd hx hnx
  | cons z rest ih =>
      intro domains x hx hnx
      simp only [reviseAux] at hnx
      split at hnx
      case isTrue h => exact ih domains x hx hnx
      case isFalse h =>
          by_cases hxz : x = z
          · subst hxz
            exact Bool.eq_false_iff.2 h
          · have hx2 : x ∈ updateDomain domains Xi
                ((domains Xi).filter fun w => !(w == z)) Xi := by
              rw [updateDomain, if_pos rfl, List.mem_filter]
              exact ⟨hx, by simpa using hxz⟩
            have hXj : updateDomain domains Xi ((domains Xi).filter fun w => !(w == z)) Xj =
                domains Xj := by
              rw [updateDomain, if_neg hne]
            rw [← hXj]
            exact ih _ x hx2 hnx

theorem constraintPairs_mem (d1 d2 : List Int) (p : Int × Int) :
    p ∈ constraintPairs d1 d2 ↔
      (p.1 ∈ d1 ∧ p.2 ∈ d2 ∧ p.1 ≠ p.2) ∨ (p.2 ∈ d1 ∧ p.1 ∈ d2 ∧ p.1 ≠ p.2) := by
  rw [constraintPairs]
  constructor
  · intro h
    rcases List.mem_flatMap.1 h with ⟨v1, h1, hin⟩
    rcases List.mem_flatMap.1 hin with ⟨v2, h2, hp⟩
    by_cases hv : v1 = v2
    · rw [if_neg (by simpa using hv)] at hp
      cases hp
    · rw [if_pos hv] at hp
      rcases List.mem_cons.1 hp with rfl | hp2
      · exact Or.inl ⟨h1, h2, hv⟩
      · rcases List.mem_cons.1 hp2 with rfl | hp3
        · exact Or.inr ⟨h1, h2, fun hc => hv hc.symm⟩
        · cases hp3
  · rintro (⟨ha, hb, hne⟩ | ⟨ha, hb, hne⟩)
    · refine List.mem_flatMap.2 ⟨p.1, ha, List.mem_flatMap.2 ⟨p.2, hb, ?_⟩⟩
      rw [if_pos hne]
      rw [show ((p.1, p.2) : Int × Int) = p from Prod.mk.eta]
      exact List.mem_cons_self p _
    · refine List.mem_flatMap.2 ⟨p.2, ha, List.mem_flatMap.2 ⟨p.1, hb, ?_⟩⟩
      rw [if_pos (fun hc => hne hc.symm)]
      refine List.mem_cons_of_mem _ ?_
      rw [show ((p.1, p.2) : Int × Int) = p from Prod.mk.eta]
      exact List.mem_cons_self p _

theorem getConstraint_make :
    ∀ (edges : List (String × String)) (D : Domains) (u w : String),
      hasKey (edges.map fun e => (e, constraintPairs (D e.1) (D e.2))) (u, w) = true →
      getConstraint (edges.map fun e => (e, constraintPairs (D e.1) (D e.2))) (u, w) =
        constraintPairs (D u) (D w) := by
  intro edges
  induction edges with
  | nil => intro D u w h; exact Bool.noConfusion h
  | cons e es ih =>
      intro D u w h
      rw [List.map_cons, getConstraint, List.find?_cons]
      by_cases hk : ((e, constraintPairs (D e.1) (D e.2)).1 == (u, w)) = true
      · rw [hk]
        have he : e = (u, w) := by simpa using hk
        subst he
        rfl
      · rw [Bool.eq_false_iff.2 hk]
        rw [List.map_cons, hasKey, List.any_cons, Bool.or_eq_true] at h
        rcases h with h1 | h1
        · exact absurd h1 hk
        · exact ih D u w h1

theorem constraintPairs_mem2 (d1 d2 : List Int) (x y : Int) :
    ((x, y) : Int × Int) ∈ constraintPairs d1 d2 ↔
      (x ∈ d1 ∧ y ∈ d2 ∧ x ≠ y) ∨ (y ∈ d1 ∧ x ∈ d2 ∧ x ≠ y) := by
  simpa using constraintPairs_mem d1 d2 (x, y)

theorem reviseAux_self_empty (bc : ConstraintMap) (Xi : String) (D0 : Domains)
    (hget : getConstraint bc (Xi, Xi) = constraintPairs (D0 Xi) (D0 Xi)) :
    ∀ (snapshot : List Int) (domains : Domains),
      (∀ x ∈ domains Xi, x ∈ D0 Xi) → (∀ x ∈ snapshot, x ∈ D0 Xi) →
      (reviseAux bc Xi Xi snapshot domains).2 = true →
      (reviseAux bc Xi Xi snapshot domains).1 Xi = [] := by
  intro snapshot
  induction snapshot with
  | nil => intro domains _ _ hflag; exact Bool.noConfusion hflag
  | cons z rest ih =>
      intro domains hdom hsnap hflag
      simp only [reviseAux] at hflag ⊢
      split at hflag
      case isTrue h =>
          rw [if_pos h]
          exact ih domains hdom (fun x hx => hsnap x (List.mem_cons_of_mem z hx)) hflag
      case isFalse h =>
          rw [if_neg h]
          show (reviseAux bc Xi Xi rest
            (updateDomain domains Xi ((domains Xi).filter fun w => !(w == z)))).1 Xi = []
          have hall : ∀ y ∈ domains Xi, y = z := by
            intro y hy
            by_contra hyz
            refine h (List.any_eq_true.2 ⟨y, hy, ?_⟩)
            rw [hget]
            have hmem : ((z, y) : Int × Int) ∈ constraintPairs (D0 Xi) (D0 Xi) :=
              (constraintPairs_mem (D0 Xi) (D0 Xi) (z, y)).2
                (Or.inl ⟨hsnap z (List.mem_cons_self z rest), hdom y hy,
                  fun hc => hyz hc.symm⟩)
            simpa using hmem
          have hempty : updateDomain domains Xi
              ((domains Xi).filter fun w => !(w == z)) Xi = [] := by
            rw [updateDomain, if_pos rfl]
            rw [List.filter_eq_nil_iff]
            intro y hy
            simpa using hall y hy
          have hsub := reviseAux_sub bc Xi Xi rest
            (updateDomain domains Xi ((domains Xi).filter fun w => !(w == z))) Xi
          rw [hempty] at hsub
          exact List.eq_nil_iff_forall_not_mem.2 fun x hx => (List.not_mem_nil x) (hsub hx)

theorem ac3Loop_fixpoint (V : List String) (bc : ConstraintMap) (D0 : Domains)
    (hbc : ∀ u w : String, hasKey bc (u, w) = true →
      getConstraint bc (u, w) = constraintPairs (D0 u) (D0 w)) :
    ∀ (fuel : Nat) (queue : List (String × String)) (domains domains2 : Domains),
      (∀ p ∈ queue, p.1 ∈ V ∧ p.2 ∈ V ∧ hasKey bc p = true) →
      (∀ (v : String) (x : Int), x ∈ domains v → x ∈ D0 v) →
      (∀ u w : String, u ∈ V → w ∈ V → hasKey bc (u, w) = true →
        ((u, w) ∈ queue ∨ arcConsistent bc domains u w)) →
      ac3Loop V bc fuel queue domains = (true, domains2) →
      ∀ u w : String, u ∈ V → w ∈ V → hasKey bc (u, w) = true →
        arcConsistent bc domains2 u w := by
  intro fuel
  induction fuel with
  | zero =>
      intro queue domains domains2 _ _ _ hres
      rw [show ac3Loop V bc 0 queue domains = (false, domains) from rfl] at hres
      exact absurd (congrArg Prod.fst hres) (by simp)
  | succ fuel ih =>
      intro queue domains domains2 hq hsub hinv hres
      match queue with
      | [] =>
          have hdom : domains = domains2 := congrArg Prod.snd hres
          intro u w hu hw hkey
          rcases hinv u w hu hw hkey with hmem | hcons
          · cases hmem
          · rwa [← hdom]
      | (Xi, Xj) :: rest =>
          obtain ⟨hXi, hXj, hkeyij⟩ := hq (Xi, Xj) (List.mem_cons_self _ _)
          simp only [ac3Loop] at hres
          split at hres
          case isTrue hflag =>
              split at hres
              case isTrue hempty => exact absurd (congrArg Prod.fst hres) (by simp)
              case isFalse hempty =>
                  have hne : Xi ≠ Xj := by
                    intro hxx
                    subst hxx
                    have hself := reviseAux_self_empty bc Xi D0 (hbc Xi Xi hkeyij)
                      (domains Xi) domains (fun x hx => hsub Xi x hx)
                      (fun x hx => hsub Xi x hx) hflag
                    rw [revise] at hempty hflag
                    rw [hself] at hempty
                    exact hempty rfl
                  have hne2 : Xj ≠ Xi := fun hc => hne hc.symm
                  refine ih _ _ _ ?_ ?_ ?_ hres
                  · intro p hp
                    rcases List.mem_append.1 hp with hp | hp
                    · exact hq p (List.mem_cons_of_mem _ hp)
                    · obtain ⟨h1, h2, _, h4⟩ := (requeue_mem V bc Xi Xj p).1 hp
                      exact ⟨h2, by rwa [h1], by rwa [show ((p.1, Xi) : String × String) =
                        p from by rw [← h1, Prod.mk.eta]] at h4⟩
                  · intro v x hx
                    exact hsub v x (revise_sub bc domains Xi Xj v hx)
                  · intro u w hu hw hkey
                    have hXjeq : (revise bc domains Xi Xj).1 Xj = domains Xj :=
                      revise_apply_ne bc domains Xi Xj Xj hne2
                    by_cases hwXi : w = Xi
                    · rw [hwXi]
                      by_cases huXj : u = Xj
                      · rw [huXj]
                        have hkey2 : hasKey bc (Xj, Xi) = true := by rwa [huXj, hwXi] at hkey
                        have hu2 : Xj ∈ V := by rwa [huXj] at hu
                        have hw2 : Xi ∈ V := by rwa [hwXi] at hw
                        rcases hinv Xj Xi hu2 hw2 hkey2 with hmem | hcons
                        · rcases List.mem_cons.1 hmem with heq | hmem2
                          · exact absurd (show Xi = Xj from congrArg Prod.snd heq) hne
                          · exact Or.inl (List.mem_append_left _ hmem2)
                        · refine Or.inr ?_
                          intro y hy
                          rw [hXjeq] at hy
                          obtain ⟨x, hx, hc⟩ := hcons y hy
                          refine ⟨x, ?_, hc⟩
                          by_contra hnx
                          have hrm := reviseAux_removed_unsupported bc Xi Xj hne2
                            (domains Xi) domains x hx hnx
                          have hmemji : ((y, x) : Int × Int) ∈
                              constraintPairs (D0 Xj) (D0 Xi) := by
                            have hc2 := hc
                            rw [hbc Xj Xi hkey2] at hc2
                            simpa using hc2
                          have hmemij : ((x, y) : Int × Int) ∈
                              constraintPairs (D0 Xi) (D0 Xj) := by
                            rcases (constraintPairs_mem2 _ _ y x).1 hmemji with
                              ⟨h1, h2, h3⟩ | ⟨h1, h2, h3⟩
                            · exact (constraintPairs_mem2 _ _ x y).2
                                (Or.inl ⟨h2, h1, fun hc2 => h3 hc2.symm⟩)
                            · exact (constraintPairs_mem2 _ _ x y).2
                                (Or.inr ⟨h2, h1, fun hc2 => h3 hc2.symm⟩)
                          have hsupp : (domains Xj).any
                              (fun y2 => (getConstraint bc (Xi, Xj)).contains (x, y2)) = true := by
                            refine List.any_eq_true.2 ⟨y, hy, ?_⟩
                            rw [hbc Xi Xj hkeyij]
                            simpa using hmemij
                          rw [hrm] at hsupp
                          exact Bool.noConfusion hsupp
                      · refine Or.inl (List.mem_append_right _
                          ((requeue_mem V bc Xi Xj (u, Xi)).2 ⟨rfl, hu, huXj, ?_⟩))
                        rwa [hwXi] at hkey
                    · by_cases huXi : u = Xi ∧ w = Xj
                      · obtain ⟨h1, h2⟩ := huXi
                        rw [h1, h2]
                        refine Or.inr ?_
                        intro x hx
                        have hsupp := revise_survivors_supported bc domains Xi Xj hne2 x hx
                        obtain ⟨y, hy, hc⟩ := List.any_eq_true.1 hsupp
                        exact ⟨y, by rwa [hXjeq], hc⟩
                      · rcases hinv u w hu hw hkey with hmem | hcons
                        · rcases List.mem_cons.1 hmem with heq | hmem2
                          · exact absurd ⟨congrArg Prod.fst heq, congrArg Prod.snd heq⟩ huXi
                          · exact Or.inl (List.mem_append_left _ hmem2)
                        · refine Or.inr ?_
                          intro x hx
                          obtain ⟨y, hy, hc⟩ := hcons x (revise_sub bc domains Xi Xj u hx)
                          refine ⟨y, ?_, hc⟩
                          rwa [revise_apply_ne bc domains Xi Xj w (fun hc2 => hwXi hc2)]
          case isFalse hflag =>
              have hflag2 : (revise bc domains Xi Xj).2 = false := Bool.eq_false_iff.2 hflag
              have heq := reviseAux_false_eq bc Xi Xj (domains Xi) domains hflag2
              rw [revise] at hres
              rw [heq] at hres
              refine ih _ _ _ (fun p hp => hq p (List.mem_cons_of_mem _ hp)) hsub ?_ hres
              intro u w hu hw hkey
              by_cases hij : u = Xi ∧ w = Xj
              · obtain ⟨h1, h2⟩ := hij
                subst h1
                subst h2
                refine Or.inr ?_
                intro x hx
                have hsupp := reviseAux_false_supported bc u w (domains u) domains hflag2 x hx
                obtain ⟨y, hy, hc⟩ := List.any_eq_true.1 hsupp
                exact ⟨y, hy, hc⟩
              · rcases hinv u w hu hw hkey with hmem | hcons
                · rcases List.mem_cons.1 hmem with heq2 | hmem2
                  · exact absurd ⟨congrArg Prod.fst heq2, congrArg Prod.snd heq2⟩ hij
                  · exact Or.inl hmem2
                · exact Or.inr hcons

theorem ac3Loop_noop (V : List String) (bc : ConstraintMap) :
    ∀ (fuel : Nat) (queue : List (String × String)) (domains : Domains),
      queue.length < fuel →
      (∀ p ∈ queue, arcConsistent bc domains p.1 p.2) →
      ac3Loop V bc fuel queue domains = (true, domains) := by
  intro fuel
  induction fuel with
  | zero => intro queue domains h _; exact absurd h (Nat.not_lt_zero _)
  | succ fuel ih =>
      intro queue domains hlen hcons
      match queue with
      | [] => rfl
      | (Xi, Xj) :: rest =>
          have hrev : revise bc domains Xi Xj = (domains, false) :=
            revise_noop_of_consistent bc domains Xi Xj
              (hcons (Xi, Xj) (List.mem_cons_self _ _))
          simp only [ac3Loop, hrev]
          exact ih rest domains (by simpa using Nat.lt_of_succ_lt_succ hlen)
            (fun p hp => hcons p (List.mem_cons_of_mem _ hp))

/-- C6, counterexample: on the instance with variables `a, b, k`, domains
`{a: {1}, b: {1}, k: {1, 2}}` and edges `(a, b), (k, a)`, the first run of
`ac_3` empties `a`'s domain and aborts with `false` leaving `k`'s domain
`{1, 2}`, while a second run in succession then empties `k`'s domain too —
running `ac_3` twice does not yield the same domains as running it once. -/
theorem ac3_not_idempotent_after_false :
    (((CSP.make ["a", "b", "k"]
        (fun v => if v = "a" then [1] else if v = "b" then [1] else [1, 2])
        [("a", "b"), ("k", "a")]).ac_3).1 = false) ∧
    (((CSP.make ["a", "b", "k"]
        (fun v => if v = "a" then [1] else if v = "b" then [1] else [1, 2])
        [("a", "b"), ("k", "a")]).ac_3).2.domains "k" = [1, 2]) ∧
    ((((CSP.make ["a", "b", "k"]
        (fun v => if v = "a" then [1] else if v = "b" then [1] else [1, 2])
        [("a", "b"), ("k", "a")]).ac_3).2.ac_3).2.domains "k" = []) := by
  refine ⟨by decide, by decide, by decide⟩

/-- C6, amended: when `ac_3` returns `true`, it has reached an
arc-consistent fixpoint, so a second run in succession removes no value
(it yields exactly the same domains) and returns `true`. Idempotence can
fail only after a `false` return, where propagation aborted mid-way. -/
theorem ac3_idempotent_of_true (vs : List String) (D : Domains)
    (edges : List (String × String))
    (h : ((CSP.make vs D edges).ac_3).1 = true) :
    ((((CSP.make vs D edges).ac_3).2).ac_3).1 = true ∧
    ∀ v, ((((CSP.make vs D edges).ac_3).2).ac_3).2.domains v =
      ((CSP.make vs D edges).ac_3).2.domains v := by
  have hbc : ∀ u w : String,
      hasKey (CSP.make vs D edges).binary_constraints (u, w) = true →
      getConstraint (CSP.make vs D edges).binary_constraints (u, w) =
        constraintPairs (D u) (D w) :=
    fun u w hk => getConstraint_make edges D u w hk
  have hres : ac3Loop (CSP.make vs D edges).vars (CSP.make vs D edges).binary_constraints
      (ac3Fuel (CSP.make vs D edges).vars
        (initQueue (CSP.make vs D edges).vars (CSP.make vs D edges).binary_constraints)
        (CSP.make vs D edges).domains)
      (initQueue (CSP.make vs D edges).vars (CSP.make vs D edges).binary_constraints)
      (CSP.make vs D edges).domains =
      (true, ((CSP.make vs D edges).ac_3).2.domains) := by
    rw [ac_3_domains]
    exact Prod.ext h rfl
  have hfix := ac3Loop_fixpoint (CSP.make vs D edges).vars
    (CSP.make vs D edges).binary_constraints D hbc _ _ _ _
    (fun p hp => (initQueue_mem _ _ p).1 hp)
    (fun v x hx => hx)
    (fun u w hu hw hk => Or.inl ((initQueue_mem _ _ (u, w)).2 ⟨hu, hw, hk⟩))
    hres
  have hnoop := ac3Loop_noop (CSP.make vs D edges).vars
    (CSP.make vs D edges).binary_constraints
    (ac3Fuel (CSP.make vs D edges).vars
      (initQueue (CSP.make vs D edges).vars (CSP.make vs D edges).binary_constraints)
      ((CSP.make vs D edges).ac_3).2.domains)
    (initQueue (CSP.make vs D edges).vars (CSP.make vs D edges).binary_constraints)
    ((CSP.make vs D edges).ac_3).2.domains
    (by rw [ac3Fuel]; omega)
    (by
      intro p hp
      obtain ⟨h1, h2, h3⟩ := (initQueue_mem _ _ p).1 hp
      exact hfix p.1 p.2 h1 h2 (by rwa [Prod.mk.eta]))
  have hgoal1 : ((((CSP.make vs D edges).ac_3).2).ac_3).1 =
      (ac3Loop (CSP.make vs D edges).vars (CSP.make vs D edges).binary_constraints
        (ac3Fuel (CSP.make vs D edges).vars
          (initQueue (CSP.make vs D edges).vars (CSP.make vs D edges).binary_constraints)
          ((CSP.make vs D edges).ac_3).2.domains)
        (initQueue (CSP.make vs D edges).vars (CSP.make vs D edges).binary_constraints)
        ((CSP.make vs D edges).ac_3).2.domains).1 := rfl
  have hgoal2 : ((((CSP.make vs D edges).ac_3).2).ac_3).2.domains =
      (ac3Loop (CSP.make vs D edges).vars (CSP.make vs D edges).binary_constraints
        (ac3Fuel (CSP.make vs D edges).vars
          (initQueue (CSP.make vs D edges).vars (CSP.make vs D edges).binary_constraints)
          ((CSP.make vs D edges).ac_3).2.domains)
        (initQueue (CSP.make vs D edges).vars (CSP.make vs D edges).binary_constraints)
        ((CSP.make vs D edges).ac_3).2.domains).2 := rfl
  constructor
  · rw [hgoal1, hnoop]
  · intro v
    rw [hgoal2, hnoop]

/-- C6, witness at the three-variable alldiff instance with domains
`{1, 2, 3}` (already arc-consistent; `ac_3` returns `true`). -/
theorem ac3_idempotent_of_true_check :
    ((CSP.make ["X", "Y", "Z"] (fun _ => [1, 2, 3])
        (alldiff ["X", "Y", "Z"])).ac_3.1 = true) ∧
    ((CSP.make ["X", "Y", "Z"] (fun _ => [1, 2, 3])
        (alldiff ["X", "Y", "Z"])).ac_3.2.ac_3.1 = true ∧
      ∀ v, (CSP.make ["X", "Y", "Z"] (fun _ => [1, 2, 3])
          (alldiff ["X", "Y", "Z"])).ac_3.2.ac_3.2.domains v =
        (CSP.make ["X", "Y", "Z"] (fun _ => [1, 2, 3])
          (alldiff ["X", "Y", "Z"])).ac_3.2.domains v) :=
  ⟨by decide, ac3_idempotent_of_true ["X", "Y", "Z"] (fun _ => [1, 2, 3])
    (alldiff ["X", "Y", "Z"]) (by decide)⟩

/-! ## Alpha-beta computes the minimax value -/

theorem le_gtop (x : GVal) : x ≤ gtop := by
  cases x with
  | none => exact bot_le
  | some a => exact WithBot.coe_le_coe.2 le_top

theorem bot_lt_gtop : (⊥ : GVal) < gtop := by
  rw [gtop]
  exact WithBot.bot_lt_coe _

/-- The Knuth–Moore specification of fail-soft alpha-beta: the returned
value `r` bounds the exact value `w` from the side on which it escaped
the `(alpha, beta)` window, and equals it inside the window. -/
def KM (r w alpha beta : GVal) : Prop :=
  (r ≤ alpha → w ≤ r) ∧ (alpha < r → r < beta → r = w) ∧ (beta ≤ r → r ≤ w)

theorem KM_refl (r alpha beta : GVal) : KM r r alpha beta :=
  ⟨fun _ => le_rfl, fun _ _ => rfl, fun _ => le_rfl⟩

theorem KM_eq_of_bot_top (r w : GVal) (h : KM r w ⊥ gtop) : r = w := by
  rcases le_or_lt r ⊥ with h1 | h1
  · have hr : r = ⊥ := le_bot_iff.1 h1
    have hw := h.1 h1
    rw [hr] at hw ⊢
    exact (le_bot_iff.1 hw).symm
  · rcases lt_or_le r gtop with h2 | h2
    · exact h.2.1 h1 h2
    · have hr : r = gtop := le_antisymm (le_gtop r) h2
      have hw := h.2.2 h2
      rw [hr] at hw ⊢
      exact (le_antisymm (le_gtop w) hw).symm

theorem max_value_zero {S A : Type} (g : AGame S A) (p : Int) (s : S) :
    max_value g p 0 s =
      if g.is_terminal s then (gv (g.utility s p), none) else ((⊥ : GVal), none) := by
  rw [max_value, mmBoth]
  split <;> rfl

theorem min_value_zero {S A : Type} (g : AGame S A) (p : Int) (s : S) :
    min_value g p 0 s =
      if g.is_terminal s then (gv (g.utility s p), none) else (gtop, none) := by
  rw [min_value, mmBoth]
  split <;> rfl

theorem max_value_succ {S A : Type} (g : AGame S A) (p : Int) (n : Nat) (s : S) :
    max_value g p (n + 1) s =
      if g.is_terminal s then (gv (g.utility s p), none)
      else maxGo (fun t => min_value g p n t) g s (g.actions s) ⊥ none := by
  rw [max_value, mmBoth]
  split <;> rfl

theorem min_value_succ {S A : Type} (g : AGame S A) (p : Int) (n : Nat) (s : S) :
    min_value g p (n + 1) s =
      if g.is_terminal s then (gv (g.utility s p), none)
      else minGo (fun t => max_value g p n t) g s (g.actions s) gtop none := by
  rw [min_value, mmBoth]
  split <;> rfl

theorem max_value_ab_zero {S A : Type} (g : AGame S A) (p : Int) (s : S)
    (alpha beta : GVal) :
    max_value_ab g p 0 s alpha beta =
      if g.is_terminal s then (gv (g.utility s p), none) else ((⊥ : GVal), none) := by
  rw [max_value_ab, abBoth]

theorem min_value_ab_zero {S A : Type} (g : AGame S A) (p : Int) (s : S)
    (alpha beta : GVal) :
    min_value_ab g p 0 s alpha beta =
      if g.is_terminal s then (gv (g.utility s p), none) else (gtop, none) := by
  rw [min_value_ab, abBoth]

theorem max_value_ab_succ {S A : Type} (g : AGame S A) (p : Int) (n : Nat) (s : S)
    (alpha beta : GVal) :
    max_value_ab g p (n + 1) s alpha beta =
      if g.is_terminal s then (gv (g.utility s p), none)
      else abMaxGo (fun t al be => min_value_ab g p n t al be) g s
        (g.actions s) ⊥ none alpha beta := by
  rw [max_value_ab, abBoth]
  rfl

theorem min_value_ab_succ {S A : Type} (g : AGame S A) (p : Int) (n : Nat) (s : S)
    (alpha beta : GVal) :
    min_value_ab g p (n + 1) s alpha beta =
      if g.is_terminal s then (gv (g.utility s p), none)
      else abMinGo (fun t al be => max_value_ab g p n t al be) g s
        (g.actions s) gtop none alpha beta := by
  rw [min_value_ab, abBoth]
  rfl

theorem boundedDepth_succ {S A : Type} (g : AGame S A) (n : Nat) (s : S)
    (h : boundedDepth g (n + 1) s = true) (hterm : g.is_terminal s = false) :
    ∀ a ∈ g.actions s, boundedDepth g n (g.result s a) = true := by
  rw [boundedDepth, hterm, Bool.false_or, List.all_eq_true] at h
  exact h

theorem maxGo_ge {S A : Type} (recurMM : S → GVal × Option A) (g : AGame S A) (s : S) :
    ∀ (as : List A) (v : GVal) (move : Option A),
      v ≤ (maxGo recurMM g s as v move).1 := by
  intro as
  induction as with
  | nil => intro v move; exact le_rfl
  | cons a rest ih =>
      intro v move
      simp only [maxGo]
      split
      case isTrue h => exact (le_of_lt h).trans (ih _ _)
      case isFalse h => exact ih _ _

theorem minGo_le {S A : Type} (recurMM : S → GVal × Option A) (g : AGame S A) (s : S) :
    ∀ (as : List A) (v : GVal) (move : Option A),
      (minGo recurMM g s as v move).1 ≤ v := by
  intro as
  induction as with
  | nil => intro v move; exact le_rfl
  | cons a rest ih =>
      intro v move
      simp only [minGo]
      split
      case isTrue h => exact (ih _ _).trans (le_of_lt h)
      case isFalse h => exact ih _ _

theorem KM_step_max (alpha0 beta v m v2 w : GVal)
    (hvb : v < beta) (hkm : KM v m alpha0 beta)
    (hchild : KM v2 w (max alpha0 v) beta) :
    KM (max v v2) (max m w) alpha0 beta := by
  refine ⟨?_, ?_, ?_⟩
  · intro h
    rcases max_le_iff.1 h with ⟨h1, h2⟩
    have hm := hkm.1 h1
    have hw := hchild.1 (le_trans h2 (le_max_left _ _))
    exact max_le (hm.trans (le_max_left _ _)) (hw.trans (le_max_right _ _))
  · intro h1 h2
    rcases le_or_lt v2 v with hc | hc
    · rw [max_eq_left hc] at h1 h2 ⊢
      have hvm := hkm.2.1 h1 h2
      have hw : w ≤ v2 := hchild.1 (hc.trans (le_max_right _ _))
      rw [max_eq_left (by rw [← hvm]; exact hw.trans hc)]
      exact hvm
    · rw [max_eq_right (le_of_lt hc)] at h1 h2 ⊢
      have hv2w := hchild.2.1 (max_lt h1 hc) h2
      have hmw : m < w := by
        rcases le_or_lt v alpha0 with hv | hv
        · exact lt_of_le_of_lt (hkm.1 hv) (hv2w ▸ hc)
        · rw [← hkm.2.1 hv hvb, ← hv2w]
          exact hc
      rw [max_eq_right (le_of_lt hmw)]
      exact hv2w
  · intro h
    rcases le_max_iff.1 h with h1 | h1
    · exact absurd h1 (not_le_of_lt hvb)
    · have hw := hchild.2.2 h1
      rw [max_eq_right (le_of_lt (lt_of_lt_of_le hvb h1))]
      exact hw.trans (le_max_right _ _)

theorem KM_step_min (alpha beta0 v m v2 w : GVal)
    (hav : alpha < v) (hkm : KM v m alpha beta0)
    (hchild : KM v2 w alpha (min beta0 v)) :
    KM (min v v2) (min m w) alpha beta0 := by
  refine ⟨?_, ?_, ?_⟩
  · intro h
    rcases min_le_iff.1 h with h1 | h1
    · exact absurd h1 (not_le_of_lt hav)
    · have hw := hchild.1 h1
      rw [min_eq_right (le_of_lt (lt_of_le_of_lt h1 hav))]
      exact (min_le_right _ _).trans hw
  · intro h1 h2
    rcases le_or_lt v v2 with hc | hc
    · rw [min_eq_left hc] at h1 h2 ⊢
      have hvm := hkm.2.1 h1 h2
      have hw : v2 ≤ w := hchild.2.2 (le_trans (min_le_right _ _) hc)
      rw [min_eq_left (by rw [← hvm]; exact hc.trans hw)]
      exact hvm
    · rw [min_eq_right (le_of_lt hc)] at h1 h2 ⊢
      have hv2w := hchild.2.1 h1 (lt_min h2 hc)
      have hwm : w < m := by
        rcases le_or_lt beta0 v with hv | hv
        · have hm := hkm.2.2 hv
          exact lt_of_lt_of_le (hv2w ▸ hc) hm
        · rw [← hkm.2.1 hav hv, ← hv2w]
          exact hc
      rw [min_eq_right (le_of_lt hwm)]
      exact hv2w
  · intro h
    rcases le_min_iff.1 h with ⟨h1, h2⟩
    have hm := hkm.2.2 h1
    have hw := hchild.2.2 ((min_le_left _ _).trans h2)
    exact le_min ((min_le_left _ _).trans hm) ((min_le_right _ _).trans hw)

theorem maxGo_cons {S A : Type} (recurMM : S → GVal × Option A) (g : AGame S A)
    (s : S) (a : A) (rest : List A) (v : GVal) (move : Option A) :
    maxGo recurMM g s (a :: rest) v move =
      if v < (recurMM (g.result s a)).1 then
        maxGo recurMM g s rest (recurMM (g.result s a)).1 (some a)
      else maxGo recurMM g s rest v move := rfl

theorem minGo_cons {S A : Type} (recurMM : S → GVal × Option A) (g : AGame S A)
    (s : S) (a : A) (rest : List A) (v : GVal) (move : Option A) :
    minGo recurMM g s (a :: rest) v move =
      if (recurMM (g.result s a)).1 < v then
        minGo recurMM g s rest (recurMM (g.result s a)).1 (some a)
      else minGo recurMM g s rest v move := rfl

theorem abMaxGo_cons {S A : Type} (recurAB : S → GVal → GVal → GVal × Option A)
    (g : AGame S A) (s : S) (a : A) (rest : List A) (v : GVal) (move : Option A)
    (alpha beta : GVal) :
    abMaxGo recurAB g s (a :: rest) v move alpha beta =
      if v < (recurAB (g.result s a) alpha beta).1 then
        if beta ≤ (recurAB (g.result s a) alpha beta).1 then
          ((recurAB (g.result s a) alpha beta).1, some a)
        else abMaxGo recurAB g s rest (recurAB (g.result s a) alpha beta).1
          (some a) (max alpha (recurAB (g.result s a) alpha beta).1) beta
      else
        if beta ≤ v then (v, move)
        else abMaxGo recurAB g s rest v move alpha beta := rfl

theorem abMinGo_cons {S A : Type} (recurAB : S → GVal → GVal → GVal × Option A)
    (g : AGame S A) (s : S) (a : A) (rest : List A) (v : GVal) (move : Option A)
    (alpha beta : GVal) :
    abMinGo recurAB g s (a :: rest) v move alpha beta =
      if (recurAB (g.result s a) alpha beta).1 < v then
        if (recurAB (g.result s a) alpha beta).1 ≤ alpha then
          ((recurAB (g.result s a) alpha beta).1, some a)
        else abMinGo recurAB g s rest (recurAB (g.result s a) alpha beta).1
          (some a) alpha (min beta (recurAB (g.result s a) alpha beta).1)
      else
        if v ≤ alpha then (v, move)
        else abMinGo recurAB g s rest v move alpha beta := rfl

/-- The Knuth–Moore invariant carried along the `abMaxGo` fold: the running
alpha equals `max alpha0 v`, and the fail-soft result stays KM-related to
the exact fold result. -/
theorem abMaxGo_KM {S A : Type} (g : AGame S A) (s : S)
    (recurAB : S → GVal → GVal → GVal × Option A) (recurMM : S → GVal × Option A)
    (alpha0 beta : GVal) (hab : alpha0 < beta) :
    ∀ (as : List A),
      (∀ a ∈ as, ∀ al be : GVal, al < be →
        KM ((recurAB (g.result s a) al be).1) ((recurMM (g.result s a)).1) al be) →
      ∀ (v m : GVal) (move mmove : Option A),
        v < beta → KM v m alpha0 beta →
        KM ((abMaxGo recurAB g s as v move (max alpha0 v) beta).1)
          ((maxGo recurMM g s as m mmove).1) alpha0 beta := by
  intro as
  induction as with
  | nil =>
      intro _ v m move mmove _ hkm
      exact hkm
  | cons a rest ih =>
      intro hIH v m move mmove hvb hkm
      have hrest : ∀ a2 ∈ rest, ∀ al be : GVal, al < be →
          KM ((recurAB (g.result s a2) al be).1) ((recurMM (g.result s a2)).1) al be :=
        fun a2 ha2 => hIH a2 (List.mem_cons_of_mem a ha2)
      have hacb : max alpha0 v < beta := max_lt hab hvb
      have hchild := hIH a (List.mem_cons_self a rest) (max alpha0 v) beta hacb
      rw [abMaxGo_cons, maxGo_cons]
      by_cases h1 : v < (recurAB (g.result s a) (max alpha0 v) beta).1
      · rw [if_pos h1]
        by_cases h2 : beta ≤ (recurAB (g.result s a) (max alpha0 v) beta).1
        · rw [if_pos h2]
          have hwM : (recurMM (g.result s a)).1 ≤
              (if m < (recurMM (g.result s a)).1 then
                maxGo recurMM g s rest (recurMM (g.result s a)).1 (some a)
              else maxGo recurMM g s rest m mmove).1 := by
            by_cases h3 : m < (recurMM (g.result s a)).1
            · rw [if_pos h3]
              exact maxGo_ge recurMM g s rest _ (some a)
            · rw [if_neg h3]
              exact (le_of_not_lt h3).trans (maxGo_ge recurMM g s rest m mmove)
          exact ⟨fun hle => absurd hle (not_le_of_lt (lt_of_lt_of_le hab h2)),
                 fun _ hlt => absurd hlt (not_lt_of_le h2),
                 fun _ => (hchild.2.2 h2).trans hwM⟩
        · rw [if_neg h2]
          rw [show max (max alpha0 v) (recurAB (g.result s a) (max alpha0 v) beta).1 =
              max alpha0 (recurAB (g.result s a) (max alpha0 v) beta).1 from by
            rw [max_assoc, max_eq_right (le_of_lt h1)]]
          have hkm2 := KM_step_max alpha0 beta v m
            (recurAB (g.result s a) (max alpha0 v) beta).1
            (recurMM (g.result s a)).1 hvb hkm hchild
          rw [max_eq_right (le_of_lt h1)] at hkm2
          have hv2b := lt_of_not_le h2
          by_cases h3 : m < (recurMM (g.result s a)).1
          · rw [if_pos h3]
            rw [max_eq_right (le_of_lt h3)] at hkm2
            exact ih hrest _ _ (some a) (some a) hv2b hkm2
          · rw [if_neg h3]
            rw [max_eq_left (le_of_not_lt h3)] at hkm2
            exact ih hrest _ m (some a) mmove hv2b hkm2
      · rw [if_neg h1, if_neg (not_le_of_lt hvb)]
        have hkm2 := KM_step_max alpha0 beta v m
          (recurAB (g.result s a) (max alpha0 v) beta).1
          (recurMM (g.result s a)).1 hvb hkm hchild
        rw [max_eq_left (le_of_not_lt h1)] at hkm2
        by_cases h3 : m < (recurMM (g.result s a)).1
        · rw [if_pos h3]
          rw [max_eq_right (le_of_lt h3)] at hkm2
          exact ih hrest v _ move (some a) hvb hkm2
        · rw [if_neg h3]
          rw [max_eq_left (le_of_not_lt h3)] at hkm2
          exact ih hrest v m move mmove hvb hkm2

/-- The dual invariant for `abMinGo`: the running beta equals
`min beta0 v`. -/
theorem abMinGo_KM {S A : Type} (g : AGame S A) (s : S)
    (recurAB : S → GVal → GVal → GVal × Option A) (recurMM : S → GVal × Option A)
    (alpha beta0 : GVal) (hab : alpha < beta0) :
    ∀ (as : List A),
      (∀ a ∈ as, ∀ al be : GVal, al < be →
        KM ((recurAB (g.result s a) al be).1) ((recurMM (g.result s a)).1) al be) →
      ∀ (v m : GVal) (move mmove : Option A),
        alpha < v → KM v m alpha beta0 →
        KM ((abMinGo recurAB g s as v move alpha (min beta0 v)).1)
          ((minGo recurMM g s as m mmove).1) alpha beta0 := by
  intro as
  induction as with
  | nil =>
      intro _ v m move mmove _ hkm
      exact hkm
  | cons a rest ih =>
      intro hIH v m move mmove hav hkm
      have hrest : ∀ a2 ∈ rest, ∀ al be : GVal, al < be →
          KM ((recurAB (g.result s a2) al be).1) ((recurMM (g.result s a2)).1) al be :=
        fun a2 ha2 => hIH a2 (List.mem_cons_of_mem a ha2)
      have hacb : alpha < min beta0 v := lt_min hab hav
      have hchild := hIH a (List.mem_cons_self a rest) alpha (min beta0 v) hacb
      rw [abMinGo_cons, minGo_cons]
      by_cases h1 : (recurAB (g.result s a) alpha (min beta0 v)).1 < v
      · rw [if_pos h1]
        by_cases h2 : (recurAB (g.result s a) alpha (min beta0 v)).1 ≤ alpha
        · rw [if_pos h2]
          have hwM : (if (recurMM (g.result s a)).1 < m then
                minGo recurMM g s rest (recurMM (g.result s a)).1 (some a)
              else minGo recurMM g s rest m mmove).1 ≤
              (recurMM (g.result s a)).1 := by
            by_cases h3 : (recurMM (g.result s a)).1 < m
            · rw [if_pos h3]
              exact minGo_le recurMM g s rest _ (some a)
            · rw [if_neg h3]
              exact (minGo_le recurMM g s rest m mmove).trans (le_of_not_lt h3)
          exact ⟨fun _ => hwM.trans (hchild.1 h2),
                 fun hlt _ => absurd hlt (not_lt_of_le h2),
                 fun hge => absurd hge (not_le_of_lt (lt_of_le_of_lt h2 hab))⟩
        · rw [if_neg h2]
          rw [show min (min beta0 v) (recurAB (g.result s a) alpha (min beta0 v)).1 =
              min beta0 (recurAB (g.result s a) alpha (min beta0 v)).1 from by
            rw [min_assoc, min_eq_right (le_of_lt h1)]]
          have hkm2 := KM_step_min alpha beta0 v m
            (recurAB (g.result s a) alpha (min beta0 v)).1
            (recurMM (g.result s a)).1 hav hkm hchild
          rw [min_eq_right (le_of_lt h1)] at hkm2
          have hav2 := lt_of_not_le h2
          by_cases h3 : (recurMM (g.result s a)).1 < m
          · rw [if_pos h3]
            rw [min_eq_right (le_of_lt h3)] at hkm2
            exact ih hrest _ _ (some a) (some a) hav2 hkm2
          · rw [if_neg h3]
            rw [min_eq_left (le_of_not_lt h3)] at hkm2
            exact ih hrest _ m (some a) mmove hav2 hkm2
      · rw [if_neg h1, if_neg (not_le_of_lt hav)]
        have hkm2 := KM_step_min alpha beta0 v m
          (recurAB (g.result s a) alpha (min beta0 v)).1
          (recurMM (g.result s a)).1 hav hkm hchild
        rw [min_eq_left (le_of_not_lt h1)] at hkm2
        by_cases h3 : (recurMM (g.result s a)).1 < m
        · rw [if_pos h3]
          rw [min_eq_right (le_of_lt h3)] at hkm2
          exact ih hrest v _ move (some a) hav hkm2
        · rw [if_neg h3]
          rw [min_eq_left (le_of_not_lt h3)] at hkm2
          exact ih hrest v m move mmove hav hkm2

/-- The Knuth–Moore relation between the alpha-beta and plain minimax
values, at every window and every state within the depth bound, by mutual
induction on the fuel. -/
theorem mmab_KM {S A : Type} (g : AGame S A) (p : Int) :
    ∀ (n : Nat) (s : S), boundedDepth g n s = true →
      (∀ alpha beta : GVal, alpha < beta →
        KM ((max_value_ab g p n s alpha beta).1) ((max_value g p n s).1) alpha beta) ∧
      (∀ alpha beta : GVal, alpha < beta →
        KM ((min_value_ab g p n s alpha beta).1) ((min_value g p n s).1) alpha beta) := by
  intro n
  induction n with
  | zero =>
      intro s hb
      have hterm : g.is_terminal s = true := hb
      constructor
      · intro alpha beta _
        rw [max_value_ab_zero, max_value_zero, if_pos hterm]
        exact KM_refl _ _ _
      · intro alpha beta _
        rw [min_value_ab_zero, min_value_zero, if_pos hterm]
        exact KM_refl _ _ _
  | succ n ih =>
      intro s hb
      by_cases hterm : g.is_terminal s = true
      · constructor
        · intro alpha beta _
          rw [max_value_ab_succ, max_value_succ, if_pos hterm, if_pos hterm]
          exact KM_refl _ _ _
        · intro alpha beta _
          rw [min_value_ab_succ, min_value_succ, if_pos hterm, if_pos hterm]
          exact KM_refl _ _ _
      · have hterm2 : g.is_terminal s = false := by
          cases h : g.is_terminal s with
          | false => rfl
          | true => exact absurd h hterm
        have hch := boundedDepth_succ g n s hb hterm2
        constructor
        · intro alpha beta habl
          rw [max_value_ab_succ, max_value_succ, if_neg hterm, if_neg hterm]
          have h := abMaxGo_KM g s (fun t al be => min_value_ab g p n t al be)
            (fun t => min_value g p n t) alpha beta habl (g.actions s)
            (fun a ha al be halb => (ih (g.result s a) (hch a ha)).2 al be halb)
            ⊥ ⊥ none none (lt_of_le_of_lt bot_le habl) (KM_refl ⊥ alpha beta)
          rwa [max_eq_left bot_le] at h
        · intro alpha beta habl
          rw [min_value_ab_succ, min_value_succ, if_neg hterm, if_neg hterm]
          have h := abMinGo_KM g s (fun t al be => max_value_ab g p n t al be)
            (fun t => max_value g p n t) alpha beta habl (g.actions s)
            (fun a ha al be halb => (ih (g.result s a) (hch a ha)).1 al be halb)
            gtop gtop none none (lt_of_lt_of_le habl (le_gtop beta))
            (KM_refl gtop alpha beta)
          rwa [min_eq_left (le_gtop beta)] at h

/-- In `maxGo`, the returned move (when not `none`) names a child whose
recursive value is exactly the returned value. -/
theorem maxGo_move {S A : Type} (recurMM : S → GVal × Option A) (g : AGame S A)
    (s : S) :
    ∀ (as : List A) (v : GVal) (move : Option A),
      (∀ a0, move = some a0 → (recurMM (g.result s a0)).1 = v) →
      ∀ a0, (maxGo recurMM g s as v move).2 = some a0 →
        (recurMM (g.result s a0)).1 = (maxGo recurMM g s as v move).1 := by
  intro as
  induction as with
  | nil =>
      intro v move hmv a0 h
      exact hmv a0 h
  | cons a rest ih =>
      intro v move hmv a0 h
      rw [maxGo_cons] at h ⊢
      by_cases h1 : v < (recurMM (g.result s a)).1
      · rw [if_pos h1] at h ⊢
        refine ih _ (some a) ?_ a0 h
        intro a1 ha1
        injection ha1 with he
        subst he
        rfl
      · rw [if_neg h1] at h ⊢
        exact ih v move hmv a0 h

/-- In `abMaxGo` run with `beta = gtop` and a running alpha equal to the
accumulator, the returned move (when not `none`) names a child whose exact
value `w` equals the returned alpha-beta value. -/
theorem abMaxGo_move {S A : Type} (g : AGame S A) (s : S)
    (recurAB : S → GVal → GVal → GVal × Option A) (w : S → GVal) :
    ∀ (as : List A),
      (∀ a ∈ as, ∀ al : GVal, al < gtop →
        KM ((recurAB (g.result s a) al gtop).1) (w (g.result s a)) al gtop) →
      ∀ (v : GVal) (move : Option A), v < gtop →
        (∀ a0, move = some a0 → w (g.result s a0) = v) →
        ∀ a0, (abMaxGo recurAB g s as v move v gtop).2 = some a0 →
          w (g.result s a0) = (abMaxGo recurAB g s as v move v gtop).1 := by
  intro as
  induction as with
  | nil =>
      intro _ v move _ hmv a0 h
      exact hmv a0 h
  | cons a rest ih =>
      intro hIH v move hvt hmv a0 h
      have hrest : ∀ a2 ∈ rest, ∀ al : GVal, al < gtop →
          KM ((recurAB (g.result s a2) al gtop).1) (w (g.result s a2)) al gtop :=
        fun a2 ha2 => hIH a2 (List.mem_cons_of_mem a ha2)
      have hchild := hIH a (List.mem_cons_self a rest) v hvt
      rw [abMaxGo_cons] at h ⊢
      by_cases h1 : v < (recurAB (g.result s a) v gtop).1
      · rw [if_pos h1] at h ⊢
        by_cases h2 : gtop ≤ (recurAB (g.result s a) v gtop).1
        · rw [if_pos h2] at h ⊢
          have h3 : some a = some a0 := h
          injection h3 with he
          subst he
          exact (le_antisymm (hchild.2.2 h2) ((le_gtop _).trans h2)).symm
        · rw [if_neg h2] at h ⊢
          have hrt : (recurAB (g.result s a) v gtop).1 < gtop := lt_of_not_le h2
          rw [show max v (recurAB (g.result s a) v gtop).1 =
              (recurAB (g.result s a) v gtop).1 from max_eq_right (le_of_lt h1)]
            at h ⊢
          refine ih hrest _ (some a) hrt ?_ a0 h
          intro a1 ha1
          injection ha1 with he
          subst he
          exact (hchild.2.1 h1 hrt).symm
      · rw [if_neg h1, if_neg (not_le_of_lt hvt)] at h ⊢
        exact ih hrest v move hvt hmv a0 h

/-- C4: for every game and state whose depth is bounded by the fuel,
`alpha_beta_search` computes the same game value as `minimax_search`
(the value returned by `max_value_ab` over the full window equals the
minimax value from `max_value`), and whenever both searches choose an
action, the two chosen actions lead to subtrees with equal minimax value,
so the choices can differ only among value-tied alternatives. -/
theorem alpha_beta_equals_minimax {S A : Type} (g : AGame S A) (n : Nat) (s : S)
    (hb : boundedDepth g n s = true) :
    (max_value_ab g (g.to_move s) n s ⊥ gtop).1 =
      (max_value g (g.to_move s) n s).1 ∧
    ∀ a a2, alpha_beta_search g n s = some a → minimax_search g n s = some a2 →
      (min_value g (g.to_move s) (n - 1) (g.result s a)).1 =
      (min_value g (g.to_move s) (n - 1) (g.result s a2)).1 := by
  have hval := KM_eq_of_bot_top _ _
    ((mmab_KM g (g.to_move s) n s hb).1 ⊥ gtop bot_lt_gtop)
  refine ⟨hval, ?_⟩
  intro a a2 ha ha2
  cases n with
  | zero =>
      rw [alpha_beta_search, max_value_ab_zero] at ha
      by_cases hterm : g.is_terminal s = true
      · rw [if_pos hterm] at ha
        exact Option.noConfusion ha
      · rw [if_neg hterm] at ha
        exact Option.noConfusion ha
  | succ n =>
      by_cases hterm : g.is_terminal s = true
      · rw [alpha_beta_search, max_value_ab_succ, if_pos hterm] at ha
        exact Option.noConfusion ha
      · have hterm2 : g.is_terminal s = false := by
          cases h : g.is_terminal s with
          | false => rfl
          | true => exact absurd h hterm
        have hch := boundedDepth_succ g n s hb hterm2
        rw [alpha_beta_search, max_value_ab_succ, if_neg hterm] at ha
        rw [minimax_search, max_value_succ, if_neg hterm] at ha2
        have habv := abMaxGo_move g s
          (fun t al be => min_value_ab g (g.to_move s) n t al be)
          (fun t => (min_value g (g.to_move s) n t).1) (g.actions s)
          (fun a3 ha3 al hal =>
            (mmab_KM g (g.to_move s) n (g.result s a3) (hch a3 ha3)).2 al gtop hal)
          ⊥ none bot_lt_gtop (fun a0 h0 => Option.noConfusion h0) a ha
        have hmmv := maxGo_move (fun t => min_value g (g.to_move s) n t) g s
          (g.actions s) ⊥ none (fun a0 h0 => Option.noConfusion h0) a2 ha2
        have hval2 := hval
        rw [max_value_ab_succ, max_value_succ, if_neg hterm, if_neg hterm] at hval2
        exact habv.trans (hval2.trans hmmv.symm)

theorem alpha_beta_equals_minimax_check :
    boundedDepth bucketGame 3 bucketInitial = true ∧
    ((max_value_ab bucketGame (bucketGame.to_move bucketInitial) 3 bucketInitial
        ⊥ gtop).1 =
      (max_value bucketGame (bucketGame.to_move bucketInitial) 3 bucketInitial).1 ∧
     ∀ a a2, alpha_beta_search bucketGame 3 bucketInitial = some a →
       minimax_search bucketGame 3 bucketInitial = some a2 →
       (min_value bucketGame (bucketGame.to_move bucketInitial) (3 - 1)
         (bucketGame.result bucketInitial a)).1 =
       (min_value bucketGame (bucketGame.to_move bucketInitial) (3 - 1)
         (bucketGame.result bucketInitial a2)).1) :=
  ⟨by decide, alpha_beta_equals_minimax bucketGame 3 bucketInitial (by decide)⟩
